import Mathlib

/-!
Verification of the tableChanges reconciliation engine

A shallow embedding, in Lean 4, of the core data-reconciliation engine of the
tableChanges repository: value sanitization, type inference
(`src/utils/validation.ts`), field-layout building (`src/utils/fieldBuilder.ts`),
the transformation pipeline and comparison engine (`src/utils/transform.ts`),
the primary-key merge and subtraction engines (the main application module),
column building (the sheet-parser module) and grouped statistics
(`src/utils/statistics.ts`).

Modelling conventions:
* JavaScript strings are `List Char` (named `Str`), so that every string
  operation the code performs (trim, toLowerCase, padStart, split, substring
  search) is a transparent, executable Lean function.
* A JavaScript record (`Record<string, string>`) is an insertion-ordered
  association list `List (Str × Str)`; property lookup is `List.lookup`-style
  first-match lookup (keys are unique in records produced by the sheet parser).
* A JavaScript `Map` is an insertion-ordered association list where `set`
  replaces the value of an existing key in place and appends new keys;
  `get` is first-match lookup. Iteration order is list order, which matches
  JavaScript `Map` iteration (insertion order, unchanged by value overwrite).
* `undefined`/absent values are `Option.none`.
* JavaScript `Number(s)` is modelled by `jsNumber : Str → Option ℚ`, `none`
  playing the role of `NaN`.  The model covers the decimal fragment the
  program feeds it (optionally signed decimal literals, and the empty string,
  which JavaScript coerces to `0`); hexadecimal/exponent forms and infinities
  are outside the inputs exercised here.
* `String.prototype.localeCompare` (used only to order final output lists) is
  an injectable comparator parameter `cmp : Str → Str → Int`, mirroring the
  design note of the specification that the locale comparator be explicit.
* `createFieldId`/`createMappingId`/`createStatisticsId` draw on ambient state
  (clock / RNG).  They are modelled by an explicit id counter threaded through
  every function that allocates ids: ids are consecutive naturals starting at
  the caller-supplied counter, and the counter is the image of the hidden
  generator state.
-/

namespace TableChanges

/-- A JavaScript string, modelled as its list of characters. -/
abbrev Str := List Char

/-- Whitespace recognised by `String.prototype.trim`. -/
def isWs (c : Char) : Bool :=
  c = ' ' ∨ c = '\t' ∨ c = '\n' ∨ c = '\r' ∨ c = '\x0b' ∨ c = '\x0c'

/-- Drop leading whitespace. -/
def trimL (s : Str) : Str := s.dropWhile isWs

/-- Drop trailing whitespace. -/
def trimR (s : Str) : Str := (s.reverse.dropWhile isWs).reverse

/-- Model of `String.prototype.trim`: drop leading and trailing whitespace. -/
def trim (s : Str) : Str := trimL (trimR s)

/-- ASCII lower-casing of one character (`String.prototype.toLowerCase`;
characters outside A–Z, in particular the CJK characters the catalogue uses,
are fixed points in both models). -/
def lowerChar (c : Char) : Char := c.toLower

/-- Model of `String.prototype.toLowerCase`. -/
def toLowerStr (s : Str) : Str := s.map lowerChar

/-- Model of `sanitizeValue` (src/utils/helpers.ts): absent/null becomes the empty
string, anything else is coerced to a string and trimmed. -/
def sanitizeValue (v : Option Str) : Str := trim (v.getD [])

/-- A `Record<string, string>` row: insertion-ordered association list. -/
abbrev Row := List (Str × Str)

/-- JavaScript property read `row[key]` (first binding wins; records built by
the sheet parser have unique keys). -/
def jsGet (r : Row) (k : Str) : Option Str := List.lookup k r

/-- Does `s` start with `p`? -/
def startsWithL : Str → Str → Bool
  | _, [] => true
  | [], _ :: _ => false
  | c :: s, d :: p => c = d && startsWithL s p

/-- Model of `String.prototype.includes`: substring search. -/
def containsSub : Str → Str → Bool
  | s, p => startsWithL s p || match s with
      | [] => false
      | _ :: t => containsSub t p

/-- Case-insensitive test for the regular expression `^https?:\/\/`. -/
def startsHttp (s : Str) : Bool :=
  startsWithL (toLowerStr s) ("http://".data) || startsWithL (toLowerStr s) ("https://".data)

/-- Model of `value.replace(/,/g, '')`: remove every ASCII comma. -/
def stripCommas (s : Str) : Str := s.filter (fun c => ¬ c = ',')

/-- Insertion-order deduplication, first occurrence kept: the list produced by
`Array.from(new Set(values))` (JavaScript `Set` iterates in insertion order). -/
def dedupFirstAux [DecidableEq α] : List α → List α → List α
  | _, [] => []
  | seen, x :: t =>
      if x ∈ seen then dedupFirstAux seen t else x :: dedupFirstAux (x :: seen) t

/-- Model of `Array.from(new Set(l))`. -/
def dedupFirst [DecidableEq α] (l : List α) : List α := dedupFirstAux [] l

/-- JavaScript `Map.prototype.set` on an insertion-ordered association list:
replace in place if the key exists, append otherwise. -/
def jsMapSet [DecidableEq κ] : List (κ × α) → κ → α → List (κ × α)
  | [], k, v => [(k, v)]
  | (a, b) :: t, k, v => if a = k then (a, v) :: t else (a, b) :: jsMapSet t k v

/-- JavaScript `Map.prototype.get`. -/
def jsMapGet [DecidableEq κ] (m : List (κ × α)) (k : κ) : Option α := List.lookup k m

/-- JavaScript `Map.prototype.has`. -/
def jsMapHas [DecidableEq κ] (m : List (κ × α)) (k : κ) : Bool := (jsMapGet m k).isSome

/-- Model of `Array.prototype.join(sep)`. -/
def joinSep (sep : Str) : List Str → Str
  | [] => []
  | [x] => x
  | x :: y :: t => x ++ sep ++ joinSep sep (y :: t)

/-- Model of `padStart(n, '0')`: left-pad with zeros up to length `n`. -/
def padZeros (s : Str) (n : Nat) : Str :=
  if n ≤ s.length then s else List.replicate (n - s.length) '0' ++ s

/-- Decimal digit test. -/
def isDigitC (c : Char) : Bool := '0' ≤ c ∧ c ≤ '9'

/-- Value of a list of decimal digits. -/
def digitsVal (l : Str) : Nat := l.foldl (fun a c => a * 10 + (c.toNat - '0'.toNat)) 0

/-- JavaScript `Number(s)` on the decimal fragment the program uses, `none`
standing for `NaN`: surrounding whitespace is ignored, the empty string is
`0`, otherwise an optionally signed decimal literal with optional fractional
part (at least one digit overall) is accepted. -/
def jsNumber (s : Str) : Option ℚ :=
  let t := trim s
  if t = [] then some 0 else
  let (sgn, rest) : ℚ × Str :=
    match t with
    | '+' :: r => (1, r)
    | '-' :: r => (-1, r)
    | r => (1, r)
  let intPart := rest.takeWhile isDigitC
  let rest2 := rest.drop intPart.length
  match rest2 with
  | [] => if intPart = [] then none else some (sgn * digitsVal intPart)
  | '.' :: frac =>
      if frac.all isDigitC ∧ ¬ (intPart = [] ∧ frac = []) then
        some (sgn * ((digitsVal intPart : ℚ) + (digitsVal frac : ℚ) / (10 : ℚ) ^ frac.length))
      else none
  | _ => none

/-- Model of `Number.isNaN(Number(s))` is false, i.e. `s` parses as a number. -/
def jsIsNumeric (s : Str) : Bool := (jsNumber s).isSome

/-- The closed `FieldType` union (src/types/index.ts). -/
inductive FieldType where
  | text | number | singleSelect | multiSelect | link | attachment
  deriving DecidableEq, Repr

/-- Model of `FieldValueMapping` (src/types/index.ts); `fromS`/`toS` stand for the
reserved-in-Lean property names `from`/`to`. Ids are naturals drawn from the
threaded id counter. -/
structure FieldValueMapping where
  id : Nat
  fromS : Str
  toS : Str
  deriving DecidableEq, Repr

/-- Model of `FeishuField` (src/types/index.ts), the target-field record. -/
structure FeishuField where
  id : Nat
  name : Str
  type : FieldType
  sourceKey : Option Str
  required : Bool
  options : List Str
  valueMappings : List FieldValueMapping
  fixedLength : Option Int
  deriving DecidableEq, Repr

/-- Model of `ImportedColumn` (src/types/index.ts). -/
structure ImportedColumn where
  key : Str
  inferredType : FieldType
  sample : List Str
  deriving DecidableEq, Repr

/-- Model of `ParsedSheetData` (src/types/index.ts). -/
structure ParsedSheetData where
  fileName : Str
  headers : List Str
  rows : List Row
  deriving DecidableEq, Repr

/-- Model of `TableRow` (src/types/index.ts): `values`/`errors` are insertion-ordered
objects keyed by field id. -/
structure TableRow where
  rowId : Str
  values : List (Nat × Str)
  errors : List (Nat × Str)
  deriving DecidableEq, Repr

/-! ## Type inference and validation — src/utils/validation.ts -/

/-- Model of `guessFieldType` (src/utils/validation.ts lines 3–36).  The two ratio
tests `hits/total >= 0.8` and `hits/total >= 0.4` are expressed exactly over
the naturals (`5*hits ≥ 4*total`, `5*hits ≥ 2*total`); the leading
`hits.length &&` truthiness guard is the `≠ 0` conjunct. -/
def guessFieldType (samples : List Str) : FieldType :=
  if samples = [] then .text else
  let nonEmpty := samples.filter (fun s => ¬ s = [])
  let numericHits := nonEmpty.filter (fun s => jsIsNumeric (stripCommas s))
  let urlHits := nonEmpty.filter (fun s => startsHttp s)
  if numericHits.length ≠ 0 ∧ 5 * numericHits.length ≥ 4 * nonEmpty.length then .number
  else if urlHits.length ≠ 0 ∧ 5 * urlHits.length ≥ 2 * nonEmpty.length then .link
  else
    let uniqueSize := (dedupFirst nonEmpty).length
    if 1 < uniqueSize ∧ uniqueSize ≤ 6 then .singleSelect
    else if (nonEmpty.any (fun s => s.contains ',' || s.contains '、')) ∧ uniqueSize ≤ 15 then
      .multiSelect
    else .text

/-- Model of `extractOptions` (src/utils/validation.ts lines 38–49): distinct non-empty
sanitized values of column `key`, first-seen order, capped at `limit`
(default 20). -/
def extractOptions (rows : List Row) (key : Str) (limit : Nat := 20) : List Str :=
  let values := (rows.map (fun r => sanitizeValue (jsGet r key))).filter (fun v => ¬ v = [])
  (dedupFirst values).take limit

/-- The multi-select separator set `[,，、]`. -/
def isSelectSep (c : Char) : Bool := c = ',' ∨ c = '，' ∨ c = '、'

/-- Model of `value.split(/[,，、]/)`. -/
def splitSeps : Str → List Str
  | [] => [[]]
  | c :: t =>
      let r := splitSeps t
      if isSelectSep c then [] :: r else (c :: r.headI) :: r.tail

/-- The validation error strings of `validateValue`. -/
def errRequired : Str := "必填字段为空".data
def errNumber : Str := "需要为数字".data
def errLink : Str := "请填写以 http/https 开头的链接".data
def errRange : Str := "不在可选范围内".data
def errAtLeastOne : Str := "请输入至少一个选项".data
def errUndefinedOpt : Str := "含有未定义的选项".data

/-- Model of `validateValue` (src/utils/validation.ts lines 51–89), split on the
field components it reads (`required`, `type`, `options`). -/
def validateCore (value : Str) (required : Bool) (type : FieldType)
    (options : List Str) : Option Str :=
  if value = [] then (if required then some errRequired else none) else
  match type with
  | .number => if jsIsNumeric (stripCommas value) then none else some errNumber
  | .link => if startsHttp value then none else some errLink
  | .singleSelect =>
      if options ≠ [] ∧ ¬ options.contains value then some errRange else none
  | .multiSelect =>
      let parts := ((splitSeps value).map trim).filter (fun p => ¬ p = [])
      if parts = [] then some errAtLeastOne
      else if options ≠ [] ∧ parts.any (fun p => ¬ options.contains p) then
        some errUndefinedOpt
      else none
  | _ => none

/-- Model of `validateValue(value, field)`. -/
def validateValue (value : Str) (field : FeishuField) : Option Str :=
  validateCore value field.required field.type field.options

/-! ## Transformation pipeline — src/utils/transform.ts -/

/-- Model of `normalizeForType` (src/utils/transform.ts lines 4–13): trim, and give
`link` values an `https://` prefix when they lack one. -/
def normalizeForType (value : Str) (type : FieldType) : Str :=
  let cleaned := trim value
  if cleaned = [] then [] else
  if type = .link ∧ ¬ startsHttp cleaned then "https://".data ++ cleaned
  else cleaned

/-- Model of `applyValueMappings` (src/utils/transform.ts lines 15–25): first rule whose
trimmed, lower-cased `from` equals the trimmed, lower-cased value wins. -/
def applyValueMappings (value : Str) (field : FeishuField) : Str :=
  if value = [] ∨ field.valueMappings = [] then value else
  let normalized := toLowerStr (trim value)
  match field.valueMappings.find? (fun m => toLowerStr (trim m.fromS) = normalized) with
  | none => value
  | some rule => rule.toS

/-- Does the `fixedLength` setting call for padding (`targetLength` defined
and positive)? -/
def posLength : Option Int → Bool
  | none => false
  | some t => 0 < t

/-- Model of `applyFixedLength` (src/utils/transform.ts lines 27–39): left-pad a
non-empty value with `'0'` to the configured positive length. -/
def applyFixedLength (value : Str) (field : FeishuField) : Str :=
  if value = [] then value else
  match field.fixedLength with
  | none => value
  | some t => if t ≤ 0 then value else padZeros value t.toNat

/-- Stages 1–3 of the transformation pipeline in their fixed order
(normalize-for-type, value mapping, fixed-length padding), exactly as chained
at both call sites (`applyMapping` and `buildResultData`). -/
def pipelineStages (field : FeishuField) (value : Str) : Str :=
  applyFixedLength (applyValueMappings (normalizeForType value field.type) field) field

/-- JavaScript truthiness of an optional string (`undefined` and `''` are
falsy). -/
def strFalsy (v : Option Str) : Bool := v.getD [] = []

/-- The per-field cell computation of `applyMapping`/`buildResultData`:
`field.sourceKey ? sanitizeValue(raw[field.sourceKey]) : ''`, then
stages 1–3. -/
def mappedCell (field : FeishuField) (raw : Row) : Str :=
  pipelineStages field
    (if strFalsy field.sourceKey then []
     else sanitizeValue (jsGet raw (field.sourceKey.getD [])))

/-! ## Comparison engine — src/utils/transform.ts lines 41–113 -/

/-- The result of `buildKeyIndex`. -/
structure KeyIndex where
  map : List (Str × Row)
  duplicates : List Str
  missingKey : Nat
  deriving DecidableEq, Repr

/-- Model of `buildKeyIndex` (src/utils/transform.ts lines 41–62): first-seen wins on
duplicate keys, empty keys counted as missing, duplicate keys recorded. -/
def buildKeyIndex (rows : List Row) (key : Str) : KeyIndex :=
  rows.foldl
    (fun idx row =>
      let keyValue := sanitizeValue (jsGet row key)
      if keyValue = [] then { idx with missingKey := idx.missingKey + 1 }
      else if jsMapHas idx.map keyValue then
        { idx with duplicates := if idx.duplicates.contains keyValue then
            idx.duplicates else idx.duplicates ++ [keyValue] }
      else { idx with map := jsMapSet idx.map keyValue row })
    ⟨[], [], 0⟩

/-- One entry of `RowDifference.diffs`. -/
structure ColumnDiff where
  column : Str
  baseValue : Str
  targetValue : Str
  deriving DecidableEq, Repr

/-- Model of `RowDifference` (src/types/index.ts). -/
structure RowDifference where
  key : Str
  diffs : List ColumnDiff
  deriving DecidableEq, Repr

/-- Model of `ComparisonResult` (src/types/index.ts). -/
structure ComparisonResult where
  onlyInBase : List Str
  onlyInTarget : List Str
  mismatchedRows : List RowDifference
  duplicateKeysBase : List Str
  duplicateKeysTarget : List Str
  missingKeyBase : Nat
  missingKeyTarget : Nat
  comparedColumns : List Str
  deriving DecidableEq, Repr

/-- Stable insertion sort by a JavaScript comparator (`Array.prototype.sort`
with a three-way numeric comparator; JavaScript sort is stable). -/
def insertCmp (cmp : α → α → Int) (x : α) : List α → List α
  | [] => [x]
  | y :: t => if cmp x y ≤ 0 then x :: y :: t else y :: insertCmp cmp x t

/-- Model of `Array.prototype.sort(cmp)`. -/
def jsSortBy (cmp : α → α → Int) : List α → List α
  | [] => []
  | x :: t => insertCmp cmp x (jsSortBy cmp t)

/-- Model of `buildComparisonResult` (src/utils/transform.ts lines 64–113).  The
hard-coded `localeCompare('zh-Hans-CN', { numeric: true })` key comparator is
the explicit parameter `cmp`. -/
def buildComparisonResult (cmp : Str → Str → Int)
    (base target : ParsedSheetData) (key : Str) : ComparisonResult :=
  let baseIndex := buildKeyIndex base.rows key
  let targetIndex := buildKeyIndex target.rows key
  let comparedColumns := dedupFirst (base.headers ++ target.headers)
  let onlyInBase := (baseIndex.map.filter
    (fun p => ¬ jsMapHas targetIndex.map p.1)).map Prod.fst
  let mismatchedRows := baseIndex.map.foldr
    (fun p acc =>
      match jsMapGet targetIndex.map p.1 with
      | none => acc
      | some targetRow =>
          let diffs := comparedColumns.foldr
            (fun column ds =>
              let baseValue := sanitizeValue (jsGet p.2 column)
              let targetValue := sanitizeValue (jsGet targetRow column)
              if baseValue = targetValue then ds
              else ⟨column, baseValue, targetValue⟩ :: ds)
            []
          if diffs = [] then acc else RowDifference.mk p.1 diffs :: acc)
    []
  let onlyInTarget := (targetIndex.map.map Prod.fst).filter
    (fun keyValue => ¬ jsMapHas baseIndex.map keyValue)
  { onlyInBase := jsSortBy cmp onlyInBase
    onlyInTarget := jsSortBy cmp onlyInTarget
    mismatchedRows := jsSortBy (fun a b => cmp a.key b.key) mismatchedRows
    duplicateKeysBase := baseIndex.duplicates
    duplicateKeysTarget := targetIndex.duplicates
    missingKeyBase := baseIndex.missingKey
    missingKeyTarget := targetIndex.missingKey
    comparedColumns := comparedColumns }

/-! ## Default-field catalogue — src/constants/index.ts -/

/-- Model of `DefaultFieldConfig` (src/types/index.ts). -/
structure DefaultFieldConfig where
  label : Str
  type : FieldType
  keywords : List Str
  required : Option Bool
  options : Option (List Str)
  valueMappingPresets : Option (List (Str × Str))
  deriving DecidableEq, Repr

/-- Model of `PRIMARY_FIELD_NAME` (src/constants/index.ts). -/
def PRIMARY_FIELD_NAME : Str := "教育id".data

/-- Model of `DEFAULT_FIELD_CONFIGS` (src/constants/index.ts lines 19–49). -/
def DEFAULT_FIELD_CONFIGS : List DefaultFieldConfig :=
  [ ⟨"姓名".data, .text, ["姓名".data], none, none, none⟩,
    ⟨"教育id".data, .text, ["教育id".data], none, none, none⟩,
    ⟨"密码".data, .number,
      ["登录验证码".data, "验证码".data, "密码".data], none, none, none⟩,
    ⟨"身份".data, .singleSelect, ["角色".data, "身份".data], none,
      some ["学生".data, "老师".data],
      some [("S".data, "学生".data), ("s".data, "学生".data),
            ("学生".data, "学生".data), ("T".data, "老师".data),
            ("t".data, "老师".data), ("老师".data, "老师".data)]⟩ ]

/-! ## Field layout builder — src/utils/fieldBuilder.ts

`createFieldId`/`createMappingId` (src/utils/helpers.ts lines 1–9) draw on
hidden state (clock / RNG / `crypto.randomUUID`); they are modelled by the
threaded id counter: each call consumes the current counter value as the id.
Every builder therefore takes the counter and returns the advanced counter. -/

/-- Model of `normalizeKey` (src/utils/helpers.ts line 11). -/
def normalizeKey (key : Str) : Str := trim key

/-- Model of `findColumnByKeywords` (src/utils/fieldBuilder.ts lines 6–17): first
column whose trimmed lower-cased key contains some trimmed lower-cased
keyword as a substring. -/
def findColumnByKeywords (columns : List ImportedColumn) (keywords : List Str) :
    Option ImportedColumn :=
  let normalizedKeywords := keywords.map (fun k => toLowerStr (normalizeKey k))
  columns.find? (fun column =>
    normalizedKeywords.any (fun kw => containsSub (toLowerStr (normalizeKey column.key)) kw))

/-- Model of `buildFieldFromColumn` without overrides (src/utils/fieldBuilder.ts
lines 19–37), as called by `buildFallbackFields`: verbatim name, inferred
type, options auto-extracted for select types.  Returns the field and the
advanced id counter. -/
def buildFieldFromColumn (column : ImportedColumn) (rows : List Row) (n : Nat) :
    FeishuField × Nat :=
  (⟨n, column.key, column.inferredType, some column.key, false,
    (if column.inferredType = .singleSelect ∨ column.inferredType = .multiSelect then
      extractOptions rows column.key else []),
    [], none⟩, n + 1)

/-- The value-mapping presets of a template, each given an id from the
counter (`createMappingId` per entry, in preset order). -/
def allocValueMappings : List (Str × Str) → Nat → List FieldValueMapping × Nat
  | [], n => ([], n)
  | (f, t) :: rest, n =>
      (⟨n, f, t⟩ :: (allocValueMappings rest (n + 1)).1,
       (allocValueMappings rest (n + 1)).2)

/-- Model of `buildFieldFromColumn` with the overrides that `buildDefaultFields`
passes (src/utils/fieldBuilder.ts lines 43–59): the template's label/type,
the template's options (falling back to extraction) for select types, and the
preset value mappings.  The preset mapping ids are allocated before the field
id, matching JavaScript evaluation order of the overrides object. -/
def buildTemplateField (config : DefaultFieldConfig) (column : ImportedColumn)
    (rows : List Row) (n : Nat) : FeishuField × Nat :=
  (⟨(allocValueMappings (config.valueMappingPresets.getD []) n).2,
    config.label, config.type, some column.key, false,
    (if config.type = .singleSelect ∨ config.type = .multiSelect then
      config.options.getD (extractOptions rows column.key) else []),
    (allocValueMappings (config.valueMappingPresets.getD []) n).1, none⟩,
   (allocValueMappings (config.valueMappingPresets.getD []) n).2 + 1)

/-- Model of `buildDefaultFields` (src/utils/fieldBuilder.ts lines 39–63): one field
per catalogue entry whose keywords match some column, in catalogue order. -/
def buildDefaultFieldsAux (configs : List DefaultFieldConfig)
    (columns : List ImportedColumn) (rows : List Row) (n : Nat) :
    List FeishuField × Nat :=
  match configs with
  | [] => ([], n)
  | config :: rest =>
      match findColumnByKeywords columns config.keywords with
      | none => buildDefaultFieldsAux rest columns rows n
      | some column =>
          ((buildTemplateField config column rows n).1 ::
            (buildDefaultFieldsAux rest columns rows
              (buildTemplateField config column rows n).2).1,
           (buildDefaultFieldsAux rest columns rows
              (buildTemplateField config column rows n).2).2)

/-- Model of `buildDefaultFields` over the fixed catalogue. -/
def buildDefaultFields (columns : List ImportedColumn) (rows : List Row) (n : Nat) :
    List FeishuField × Nat :=
  buildDefaultFieldsAux DEFAULT_FIELD_CONFIGS columns rows n

/-- Model of `buildFallbackFields` (src/utils/fieldBuilder.ts lines 65–68): one plain
field per column, in column order. -/
def buildFallbackFields (columns : List ImportedColumn) (rows : List Row) (n : Nat) :
    List FeishuField × Nat :=
  match columns with
  | [] => ([], n)
  | column :: rest =>
      ((buildFieldFromColumn column rows n).1 ::
        (buildFallbackFields rest rows (buildFieldFromColumn column rows n).2).1,
       (buildFallbackFields rest rows (buildFieldFromColumn column rows n).2).2)

/-- The `defaultBySourceKey` map of `buildImportedFieldLayout`
(src/utils/fieldBuilder.ts lines 78–83): keyed by truthy `sourceKey`,
`Map.set` overwrite semantics. -/
def defaultBySourceKey (defaultFields : List FeishuField) : List (Str × FeishuField) :=
  defaultFields.foldl
    (fun m f => if strFalsy f.sourceKey then m else jsMapSet m (f.sourceKey.getD []) f)
    []

/-- Model of `buildImportedFieldLayout` (src/utils/fieldBuilder.ts lines 70–88):
fallback fields with each entry replaced by the template field that shares
its `sourceKey`, when one exists. -/
def buildImportedFieldLayout (columns : List ImportedColumn) (rows : List Row)
    (n : Nat) : List FeishuField × Nat :=
  if columns = [] then ([], n) else
  let fallbackFields := (buildFallbackFields columns rows n).1
  let n1 := (buildFallbackFields columns rows n).2
  let defaultFields := (buildDefaultFields columns rows n1).1
  let n2 := (buildDefaultFields columns rows n1).2
  if defaultFields = [] then (fallbackFields, n2) else
  (fallbackFields.map (fun f =>
    if strFalsy f.sourceKey then f
    else (jsMapGet (defaultBySourceKey defaultFields) (f.sourceKey.getD [])).getD f), n2)

/-! ## Column building — the sheet-parser module (`buildColumns`, `getSamples`) -/

/-- Model of `getSamples` (src/utils/helpers.ts lines 16–20): sanitized values of the
first `take` rows, empties dropped. -/
def getSamples (rows : List Row) (key : Str) (take : Nat := 3) : List Str :=
  ((rows.take take).map (fun r => sanitizeValue (jsGet r key))).filter (fun v => ¬ v = [])

/-- The `pushKey` accumulation of `buildColumns`: append the normalized key
unless it is empty or already present. -/
def pushKeys (acc : List Str) (keys : List Str) : List Str :=
  keys.foldl
    (fun acc k =>
      let normalized := normalizeKey k
      if normalized = [] ∨ acc.contains normalized then acc else acc ++ [normalized])
    acc

/-- Model of `buildColumns` (sheet-parser module, lines 107–138): ordered distinct
normalized keys from the header order then the row keys, each with inferred
type and samples. -/
def buildColumns (rows : List Row) (headerOrder : List Str) : List ImportedColumn :=
  if rows = [] ∧ headerOrder = [] then [] else
  let orderedKeys := rows.foldl (fun acc row => pushKeys acc (row.map Prod.fst))
    (pushKeys [] headerOrder)
  orderedKeys.map (fun key =>
    let samples := getSamples rows key
    ⟨key, guessFieldType samples, samples⟩)

/-! ## Primary-key merge engine — `applyMapping` in the main application
module (part_005 lines 427–536) -/

/-- The grouping pass of `applyMapping` (lines 443–454): rows with an empty
sanitized primary-key value pass through; the rest are grouped, in
first-insertion order, by sanitized key value. -/
def groupRawRows (rows : List Row) (primaryKey : Str) :
    List Row × List (Str × List Row) :=
  rows.foldl
    (fun (acc : List Row × List (Str × List Row)) raw =>
      let keyValue := sanitizeValue (jsGet raw primaryKey)
      if keyValue = [] then (acc.1 ++ [raw], acc.2)
      else (acc.1, jsMapSet acc.2 keyValue ((jsMapGet acc.2 keyValue).getD [] ++ [raw])))
    ([], [])

/-- The distinct sanitized non-empty values of column `key` across a group
(lines 467–470): `filter(Boolean)` then `Array.from(new Set(...))`. -/
def groupUniqueValues (group : List Row) (key : Str) : List Str :=
  dedupFirst ((group.map (fun row => sanitizeValue (jsGet row key))).filter (fun v => ¬ v = []))

/-- The per-group merge of `applyMapping` (lines 463–486): one merged record
over the imported columns, plus the list of conflicting column keys. -/
def mergeGroup (columns : List ImportedColumn) (group : List Row) : Row × List Str :=
  ( columns.map (fun column =>
      let uniqueValues := groupUniqueValues group column.key
      ( column.key,
        if uniqueValues = [] then []
        else if uniqueValues.length = 1 then uniqueValues.headI
        else joinSep " | ".data uniqueValues)),
    (columns.filter (fun column => 1 < (groupUniqueValues group column.key).length)).map
      ImportedColumn.key )

/-- The merge phase of `applyMapping` (lines 443–490) when a primary-key
column exists: pass-through rows first (they are pushed during grouping),
then one row per group — the single member for singleton groups, the merged
record otherwise.  Also returns `mergedCount` (rows removed by merging) and
`conflictCount` (groups with at least one conflicting column). -/
def mergeRawRows (columns : List ImportedColumn) (rows : List Row)
    (primaryKey : Str) : List Row × Nat × Nat :=
  (groupRawRows rows primaryKey).2.foldl
    (fun (acc : List Row × Nat × Nat) entry =>
      if entry.2.length = 1 then (acc.1 ++ [entry.2.headI], acc.2)
      else
        (acc.1 ++ [(mergeGroup columns entry.2).1], acc.2.1 + (entry.2.length - 1),
         acc.2.2 + if (mergeGroup columns entry.2).2 = [] then 0 else 1))
    ((groupRawRows rows primaryKey).1, 0, 0)

/-! ## Subtraction engine — `handleRunSubtract` in the main application
module (part_005 lines 751–861) -/

/-- Model of `SubtractResultType` (src/types/index.ts). -/
inductive SubtractResultType where
  | onlyInA | onlyInB | common
  deriving DecidableEq, Repr

/-- The `typePrefix` string of each partition. -/
def subtractTypeStr : SubtractResultType → Str
  | .onlyInA => "onlyInA".data
  | .onlyInB => "onlyInB".data
  | .common => "common".data

/-- Model of `SubtractResult` (src/types/index.ts). -/
structure SubtractResult where
  type : SubtractResultType
  fields : List FeishuField
  rows : List TableRow
  deriving DecidableEq, Repr

/-- The key→row map of `handleRunSubtract` (lines 761–775): plain `Map.set`
for every row with a non-empty sanitized key — so on duplicate keys the
value is overwritten. -/
def subtractKeyMap (rows : List Row) (key : Str) : List (Str × Row) :=
  rows.foldl
    (fun m row =>
      let keyValue := sanitizeValue (jsGet row key)
      if keyValue = [] then m else jsMapSet m keyValue row)
    []

/-- The three partitions of `handleRunSubtract` (lines 777–793), in map
iteration order: A-only and common from the base map, B-only from the
target map. -/
def subtractPartitions (base target : ParsedSheetData) (key : Str) :
    List Row × List Row × List Row :=
  let baseKeys := subtractKeyMap base.rows key
  let targetKeys := subtractKeyMap target.rows key
  ( (baseKeys.filter (fun p => ¬ jsMapHas targetKeys p.1)).map Prod.snd,
    (targetKeys.filter (fun p => ¬ jsMapHas baseKeys p.1)).map Prod.snd,
    (baseKeys.filter (fun p => jsMapHas targetKeys p.1)).map Prod.snd )

/-- Decimal rendering of a natural, for the `${typePrefix}-${index}` row
ids. -/
def natToStr (n : Nat) : Str := (toString n).data

/-- The row mapping shared by `applyMapping` (lines 492–514) and
`buildResultData` (lines 822–842): per field, run the pipeline stages on the
sanitized source value, validate, and record value (always) and error (when
present) under the field id. -/
def mapRawRow (fields : List FeishuField) (rowId : Str) (raw : Row) : TableRow :=
  { rowId := rowId
    values := fields.map (fun field => (field.id, mappedCell field raw))
    errors := fields.foldr
      (fun field es =>
        match validateValue (mappedCell field raw) field with
        | none => es
        | some e => (field.id, e) :: es)
      [] }

/-- Model of `buildResultData` (part_005 lines 795–849): re-derive columns and field
layout for one partition, then map every row through the pipeline.  Takes and
returns the id counter consumed by the layout builder. -/
def buildResultData (rows : List Row) (headers : List Str)
    (type : SubtractResultType) (n : Nat) : SubtractResult × Nat :=
  let fields := (buildImportedFieldLayout (buildColumns rows headers) rows n).1
  ( { type := type
      fields := fields
      rows := rows.enum.map (fun p =>
        mapRawRow fields (subtractTypeStr type ++ "-".data ++ natToStr p.1) p.2) },
    (buildImportedFieldLayout (buildColumns rows headers) rows n).2 )

/-- The full subtraction run (lines 751–855): partition, then build the three
independently re-schematized results, threading the id counter through the
three layout builds in order. -/
def runSubtract (base target : ParsedSheetData) (key : Str) (n : Nat) :
    List SubtractResult × Nat :=
  let onlyInARows := (subtractPartitions base target key).1
  let onlyInBRows := (subtractPartitions base target key).2.1
  let commonRows := (subtractPartitions base target key).2.2
  let n1 := (buildResultData onlyInARows base.headers .onlyInA n).2
  let n2 := (buildResultData onlyInBRows target.headers .onlyInB n1).2
  ([(buildResultData onlyInARows base.headers .onlyInA n).1,
    (buildResultData onlyInBRows target.headers .onlyInB n1).1,
    (buildResultData commonRows base.headers .common n2).1],
   (buildResultData commonRows base.headers .common n2).2)

/-! ## Grouped statistics — src/utils/statistics.ts -/

/-- Model of `AggregateType` (src/types/index.ts). -/
inductive AggregateType where
  | sum | count | average | max | min
  deriving DecidableEq, Repr

/-- Model of `SortByType` (src/types/index.ts). -/
inductive SortByType where
  | group | value
  deriving DecidableEq, Repr

/-- Model of `SortOrderType` (src/types/index.ts). -/
inductive SortOrderType where
  | asc | desc | none
  deriving DecidableEq, Repr

/-- Model of `StatisticsConfig` (src/types/index.ts). -/
structure StatisticsConfig where
  groupByField : Str
  aggregateField : Str
  aggregateType : AggregateType
  sortBy : SortByType
  sortOrder : SortOrderType
  deriving DecidableEq, Repr

/-- Model of `StatisticsRow` (src/types/index.ts); aggregate values are exact
rationals in the model. -/
structure StatisticsRow where
  id : Nat
  groupValue : Str
  aggregateValue : ℚ
  deriving DecidableEq, Repr

/-- Model of `splitByNewline` (src/utils/statistics.ts lines 18–29): normalize CRLF to
LF, split on LF, trim the parts, drop empties. -/
def splitByNewline (value : Str) : List Str :=
  if value = [] then [] else
  let normalized := crlfToLf value
  ((splitLf normalized).map trim).filter (fun s => ¬ s.length = 0)
where
  /-- Model of `value.replace(/\r\n/g, '\n')`. -/
  crlfToLf : Str → Str
    | [] => []
    | '\r' :: '\n' :: t => '\n' :: crlfToLf t
    | c :: t => c :: crlfToLf t
  /-- Model of `split('\n')`. -/
  splitLf : Str → List Str
    | [] => [[]]
    | c :: t =>
        let r := splitLf t
        if c = '\n' then [] :: r else (c :: r.headI) :: r.tail

/-- The name-field keyword list of `isNameField`. -/
def nameKeywords : List Str :=
  ["姓名".data, "name".data, "名字".data, "成员".data, "人员".data,
   "学员".data, "学生".data, "员工".data]

/-- Model of `isNameField` (src/utils/statistics.ts lines 34–40). -/
def isNameField (fieldName : Str) : Bool :=
  nameKeywords.any (fun keyword =>
    containsSub fieldName keyword ||
    containsSub (toLowerStr fieldName) (toLowerStr keyword))

/-- Model of `groupByField` (src/utils/statistics.ts lines 42–69): group rows by their
sanitized group value, splitting name-like multi-line values so that one row
can register under several groups. -/
def groupRowsByField (rows : List Row) (field : Str) : List (Str × List Row) :=
  let enableSplit := isNameField field
  rows.foldl
    (fun groups row =>
      let groupValueRaw := sanitizeValue (jsGet row field)
      if groupValueRaw = [] then groups else
      let groupValues :=
        if enableSplit ∧ (groupValueRaw.contains '\n' ∨ groupValueRaw.contains '\r') then
          splitByNewline groupValueRaw
        else [groupValueRaw]
      groupValues.foldl
        (fun groups groupValue =>
          if groupValue = [] then groups
          else jsMapSet groups groupValue ((jsMapGet groups groupValue).getD [] ++ [row]))
        groups)
    []

/-- Model of `aggregate` (src/utils/statistics.ts lines 71–88). -/
def aggregate (values : List ℚ) (type : AggregateType) : ℚ :=
  if values = [] then 0 else
  match type with
  | .sum => values.foldl (· + ·) 0
  | .count => values.length
  | .average => values.foldl (· + ·) 0 / values.length
  | .max => values.tail.foldl Max.max values.headI
  | .min => values.tail.foldl Min.min values.headI

/-- The numeric extraction of `calculateStatistics` on one member row
(src/utils/statistics.ts lines 107–113): sanitize the aggregate-field value,
strip commas, coerce with `Number`; `NaN` (and only `NaN`) is discarded.
Note `Number('') === 0`, so an absent or all-blank cell yields `some 0`. -/
def statNumOfRow (aggregateField : Str) (row : Row) : Option ℚ :=
  jsNumber (stripCommas (sanitizeValue (jsGet row aggregateField)))

/-- The numeric value list of one group (lines 106–115). -/
def statValues (aggregateField : Str) (groupRows : List Row) : List ℚ :=
  groupRows.filterMap (statNumOfRow aggregateField)

/-- Model of `calculateStatistics` before sorting (lines 90–126): one row per group in
encounter order, counting memberships for `count` and aggregating the
extracted numeric values otherwise.  Ids come from the threaded counter. -/
def calculateStatisticsRows (rows : List Row) (config : StatisticsConfig) (n : Nat) :
    List StatisticsRow × Nat :=
  let groups := groupRowsByField rows config.groupByField
  groups.foldl
    (fun (acc : List StatisticsRow × Nat) g =>
      let aggregateValue : ℚ :=
        if config.aggregateType = .count then g.2.length
        else aggregate (statValues config.aggregateField g.2) config.aggregateType
      (acc.1 ++ [⟨acc.2, g.1, aggregateValue⟩], acc.2 + 1))
    ([], n)

/-- Model of `sortStatistics` (lines 128–151), with the locale comparator injected. -/
def sortStatistics (cmp : Str → Str → Int) (results : List StatisticsRow)
    (sortBy : SortByType) (sortOrder : SortOrderType) : List StatisticsRow :=
  match sortOrder with
  | .none => results
  | _ =>
      jsSortBy
        (fun a b =>
          let compareValue : Int :=
            match sortBy with
            | .group => cmp a.groupValue b.groupValue
            | .value => if a.aggregateValue < b.aggregateValue then -1
                else if a.aggregateValue = b.aggregateValue then 0 else 1
          match sortOrder with
          | .asc => compareValue
          | _ => -compareValue)
        results

/-- Model of `calculateStatistics` (lines 90–126) end to end. -/
def calculateStatistics (cmp : Str → Str → Int) (data : ParsedSheetData)
    (config : StatisticsConfig) (n : Nat) : List StatisticsRow × Nat :=
  (sortStatistics cmp (calculateStatisticsRows data.rows config n).1
    config.sortBy config.sortOrder,
   (calculateStatisticsRows data.rows config n).2)

/-! ## Generic lemmas: trim, dedup, association lists -/

theorem dropWhile_head_not (p : α → Bool) (l : List α) (c : α)
    (h : (l.dropWhile p).head? = some c) : p c = false := by
  induction l with
  | nil => simp [List.dropWhile] at h
  | cons a t ih =>
      rw [List.dropWhile_cons] at h
      by_cases ha : p a
      · exact ih (by simpa [ha] using h)
      · rw [if_neg ha] at h
        have hac : a = c := by simpa using h
        rw [← hac]
        simpa using ha

theorem dropWhile_eq_self (p : α → Bool) (l : List α)
    (h : ∀ c, l.head? = some c → p c = false) : l.dropWhile p = l := by
  cases l with
  | nil => rfl
  | cons a t => rw [List.dropWhile_cons, if_neg (by simp [h a rfl])]

theorem getLast?_dropWhile (p : α → Bool) (l : List α)
    (hne : l.dropWhile p ≠ []) : (l.dropWhile p).getLast? = l.getLast? := by
  induction l with
  | nil => simp [List.dropWhile] at hne
  | cons a t ih =>
      rw [List.dropWhile_cons]
      rw [List.dropWhile_cons] at hne
      by_cases ha : p a
      · rw [if_pos ha] at hne ⊢
        have ht : t ≠ [] := by
          intro h
          subst h
          simp [List.dropWhile] at hne
        rw [ih hne]
        cases t with
        | nil => exact absurd rfl ht
        | cons b t2 => rw [List.getLast?_cons_cons]
      · simp [ha]

theorem head?_trimL_not_ws (l : Str) (c : Char) (h : (trimL l).head? = some c) :
    isWs c = false := dropWhile_head_not isWs l c h

theorem getLast?_trimR_not_ws (l : Str) (c : Char) (h : (trimR l).getLast? = some c) :
    isWs c = false := by
  rw [trimR, List.getLast?_reverse] at h
  exact dropWhile_head_not isWs l.reverse c h

theorem getLast?_trimL (l : Str) (hne : trimL l ≠ []) :
    (trimL l).getLast? = l.getLast? := getLast?_dropWhile isWs l hne

theorem head?_trim_not_ws (l : Str) (c : Char) (h : (trim l).head? = some c) :
    isWs c = false := head?_trimL_not_ws (trimR l) c h

theorem getLast?_trim_not_ws (l : Str) (c : Char) (h : (trim l).getLast? = some c) :
    isWs c = false := by
  have hne : trim l ≠ [] := by
    intro he
    rw [he] at h
    simp at h
  rw [trim, getLast?_trimL _ hne] at h
  exact getLast?_trimR_not_ws l c h

/-- A list whose first and last characters are not whitespace is unchanged by
`trim`. -/
theorem trim_eq_self (l : Str)
    (h1 : ∀ c, l.head? = some c → isWs c = false)
    (h2 : ∀ c, l.getLast? = some c → isWs c = false) : trim l = l := by
  have hR : trimR l = l := by
    rw [trimR, dropWhile_eq_self isWs l.reverse, List.reverse_reverse]
    intro c hc
    rw [List.head?_reverse] at hc
    exact h2 c hc
  rw [trim, hR, trimL, dropWhile_eq_self isWs l h1]

theorem trim_trim (l : Str) : trim (trim l) = trim l :=
  trim_eq_self (trim l) (head?_trim_not_ws l) (getLast?_trim_not_ws l)

theorem trim_nil : trim ([] : Str) = [] := rfl

/-- Prepending a non-whitespace-initial non-empty list to a trimmed non-empty
list leaves the concatenation trimmed. -/
theorem trim_append_eq_self (a l : Str) (c0 : Char) (ha : a.head? = some c0)
    (hc0 : isWs c0 = false) (hl : trim l = l) (hlne : l ≠ []) :
    trim (a ++ l) = a ++ l := by
  apply trim_eq_self
  · intro c hc
    cases a with
    | nil => simp at ha
    | cons x t =>
        have hx : x = c0 := by simpa using ha
        have hcx : x = c := by simpa using hc
        rw [← hcx, hx]
        exact hc0
  · intro c hc
    rw [List.getLast?_append_of_ne_nil _ hlne] at hc
    apply getLast?_trim_not_ws l
    rw [hl]
    exact hc

/-! ### dedupFirst -/

theorem mem_dedupFirstAux [DecidableEq α] (seen l : List α) (x : α) :
    x ∈ dedupFirstAux seen l ↔ x ∈ l ∧ x ∉ seen := by
  induction l generalizing seen with
  | nil => simp [dedupFirstAux]
  | cons a t ih =>
      rw [dedupFirstAux]
      by_cases hmem : a ∈ seen
      · rw [if_pos hmem, ih]
        by_cases hxa : x = a
        · subst hxa
          simp [hmem]
        · simp [hxa]
      · rw [if_neg hmem]
        simp only [List.mem_cons, ih, List.mem_cons]
        by_cases hxa : x = a
        · subst hxa
          simp [hmem]
        · simp [hxa]

theorem mem_dedupFirst [DecidableEq α] (l : List α) (x : α) :
    x ∈ dedupFirst l ↔ x ∈ l := by
  rw [dedupFirst, mem_dedupFirstAux]
  simp

theorem nodup_dedupFirstAux [DecidableEq α] (seen l : List α) :
    (dedupFirstAux seen l).Nodup := by
  induction l generalizing seen with
  | nil => exact List.nodup_nil
  | cons a t ih =>
      rw [dedupFirstAux]
      by_cases hmem : a ∈ seen
      · rw [if_pos hmem]; exact ih seen
      · rw [if_neg hmem]
        refine List.nodup_cons.mpr ⟨?_, ih (a :: seen)⟩
        rw [mem_dedupFirstAux]
        rintro ⟨_, h2⟩
        exact h2 (List.mem_cons_self a seen)

theorem nodup_dedupFirst [DecidableEq α] (l : List α) : (dedupFirst l).Nodup :=
  nodup_dedupFirstAux [] l

theorem dedupFirstAux_congr_seen [DecidableEq α] (s s' l : List α)
    (h : ∀ x, x ∈ s ↔ x ∈ s') : dedupFirstAux s l = dedupFirstAux s' l := by
  induction l generalizing s s' with
  | nil => rfl
  | cons a t ih =>
      rw [dedupFirstAux, dedupFirstAux]
      by_cases hmem : a ∈ s
      · rw [if_pos hmem, if_pos ((h a).mp hmem)]
        exact ih s s' h
      · rw [if_neg hmem, if_neg (fun hx => hmem ((h a).mpr hx))]
        rw [ih (a :: s) (a :: s') (by intro x; simp [h x])]

/-! ### Association-list maps -/

theorem jsMapGet_cons [DecidableEq κ] (a : κ) (b : α) (t : List (κ × α)) (k : κ) :
    jsMapGet ((a, b) :: t) k = if k = a then some b else jsMapGet t k := by
  by_cases h : k = a
  · simp [jsMapGet, List.lookup, h]
  · have hb : (k == a) = false := beq_eq_false_iff_ne.mpr h
    simp [jsMapGet, List.lookup, hb, h]

theorem jsMapGet_nil [DecidableEq κ] (k : κ) :
    jsMapGet ([] : List (κ × α)) k = none := rfl

theorem jsMapGet_set_self [DecidableEq κ] (m : List (κ × α)) (k : κ) (v : α) :
    jsMapGet (jsMapSet m k v) k = some v := by
  induction m with
  | nil => rw [jsMapSet, jsMapGet_cons, if_pos rfl]
  | cons p t ih =>
      obtain ⟨a, b⟩ := p
      rw [jsMapSet]
      by_cases hak : a = k
      · rw [if_pos hak, jsMapGet_cons, if_pos hak.symm]
      · rw [if_neg hak, jsMapGet_cons, if_neg (Ne.symm hak)]
        exact ih

theorem jsMapGet_set_ne [DecidableEq κ] (m : List (κ × α)) (k k' : κ) (v : α)
    (h : k' ≠ k) : jsMapGet (jsMapSet m k' v) k = jsMapGet m k := by
  induction m with
  | nil => rw [jsMapSet, jsMapGet_cons, if_neg (Ne.symm h), jsMapGet_nil]
  | cons p t ih =>
      obtain ⟨a, b⟩ := p
      rw [jsMapSet]
      by_cases hak : a = k'
      · rw [if_pos hak, jsMapGet_cons, jsMapGet_cons, hak,
          if_neg (Ne.symm h), if_neg (Ne.symm h)]
      · rw [if_neg hak, jsMapGet_cons, jsMapGet_cons]
        by_cases hk : k = a
        · rw [if_pos hk, if_pos hk]
        · rw [if_neg hk, if_neg hk]
          exact ih

theorem keys_jsMapSet [DecidableEq κ] (m : List (κ × α)) (k : κ) (v : α) :
    (jsMapSet m k v).map Prod.fst =
      if k ∈ m.map Prod.fst then m.map Prod.fst else m.map Prod.fst ++ [k] := by
  induction m with
  | nil => simp [jsMapSet]
  | cons p t ih =>
      obtain ⟨a, b⟩ := p
      rw [jsMapSet]
      by_cases hak : a = k
      · subst hak
        simp
      · rw [if_neg hak]
        simp only [List.map_cons, List.mem_cons]
        rw [ih]
        by_cases hk : k ∈ t.map Prod.fst
        · simp [hk, Ne.symm hak]
        · simp [hk, Ne.symm hak]

theorem jsMapHas_iff_mem_keys [DecidableEq κ] (m : List (κ × α)) (k : κ) :
    jsMapHas m k = true ↔ k ∈ m.map Prod.fst := by
  induction m with
  | nil => simp [jsMapHas, jsMapGet, List.lookup]
  | cons p t ih =>
      obtain ⟨a, b⟩ := p
      rw [jsMapHas, jsMapGet_cons]
      by_cases hak : k = a
      · simp [hak]
      · rw [if_neg hak]
        rw [jsMapHas] at ih
        rw [ih]
        simp [hak]

theorem getLast?_cons_or (a : α) (l : List α) :
    (a :: l).getLast? = l.getLast?.or (some a) := by
  cases l with
  | nil => rfl
  | cons b t =>
      rw [List.getLast?_cons_cons]
      have : (b :: t).getLast?.isSome := List.getLast?_isSome.mpr (by simp)
      obtain ⟨x, hx⟩ := Option.isSome_iff_exists.mp this
      rw [hx]
      rfl

/-! ## Claim C9: the singleSelect rule of guessFieldType -/

/-- The non-empty samples (`samples.filter(Boolean)`). -/
def nonEmptySamples (samples : List Str) : List Str :=
  samples.filter (fun s => ¬ s = [])

/-- The number rule of `guessFieldType` fires: some numeric hit and ratio at
least 0.8. -/
def numberRuleFires (samples : List Str) : Prop :=
  let nonEmpty := nonEmptySamples samples
  let numericHits := nonEmpty.filter (fun s => jsIsNumeric (stripCommas s))
  numericHits.length ≠ 0 ∧ 5 * numericHits.length ≥ 4 * nonEmpty.length

/-- The link rule of `guessFieldType` fires: some URL hit and ratio at least
0.4. -/
def linkRuleFires (samples : List Str) : Prop :=
  let nonEmpty := nonEmptySamples samples
  let urlHits := nonEmpty.filter (fun s => startsHttp s)
  urlHits.length ≠ 0 ∧ 5 * urlHits.length ≥ 2 * nonEmpty.length

instance (samples : List Str) : Decidable (numberRuleFires samples) := by
  unfold numberRuleFires; infer_instance

instance (samples : List Str) : Decidable (linkRuleFires samples) := by
  unfold linkRuleFires; infer_instance

/-- C9. When neither the number rule nor the link rule fires,
`guessFieldType` returns `singleSelect` exactly when the count of distinct
non-empty samples lies in the interval (1, 6]; in particular a constant
non-empty column (1 distinct value) is never classified `singleSelect`. -/
theorem guessFieldType_singleSelect_iff (samples : List Str)
    (hnum : ¬ numberRuleFires samples) (hurl : ¬ linkRuleFires samples) :
    guessFieldType samples = .singleSelect ↔
      (1 < (dedupFirst (nonEmptySamples samples)).length ∧
       (dedupFirst (nonEmptySamples samples)).length ≤ 6) := by
  rw [guessFieldType]
  by_cases hnil : samples = []
  · subst hnil
    rw [if_pos rfl]
    simp [nonEmptySamples, dedupFirst, dedupFirstAux]
  · rw [if_neg hnil, if_neg (by exact hnum), if_neg (by exact hurl)]
    by_cases hsel :
        1 < (dedupFirst (nonEmptySamples samples)).length ∧
        (dedupFirst (nonEmptySamples samples)).length ≤ 6
    · rw [if_pos (by exact hsel)]
      simp [hsel]
    · rw [if_neg (by exact hsel)]
      constructor
      · intro h
        split at h <;> simp_all
      · intro h
        exact absurd h hsel

/-- Witness for C9 at the specification's own scenario
`["A","B","A","C"]` (3 distinct values). -/
theorem guessFieldType_singleSelect_iff_witness :
    ¬ numberRuleFires ["A".data, "B".data, "A".data, "C".data] ∧
    ¬ linkRuleFires ["A".data, "B".data, "A".data, "C".data] ∧
    (guessFieldType ["A".data, "B".data, "A".data, "C".data] = .singleSelect ↔
      (1 < (dedupFirst (nonEmptySamples ["A".data, "B".data, "A".data, "C".data])).length ∧
       (dedupFirst (nonEmptySamples ["A".data, "B".data, "A".data, "C".data])).length ≤ 6)) :=
  ⟨by decide, by decide,
    guessFieldType_singleSelect_iff _ (by decide) (by decide)⟩

/-! ## Claim C10: empty aggregate cells become 0, not discarded -/

/-- C10. In `calculateStatistics` with a non-`count` aggregate, a member row
whose aggregate-field value is absent or sanitizes to the empty string is
mapped to the number 0 (because `Number('')` is `0`), not filtered out, so 0
enters the group's value list. -/
theorem statNumOfRow_empty_eq_zero (aggregateField : Str) (row : Row)
    (h : sanitizeValue (jsGet row aggregateField) = []) :
    statNumOfRow aggregateField row = some 0 ∧
    ∀ groupRows : List Row, row ∈ groupRows →
      (0 : ℚ) ∈ statValues aggregateField groupRows := by
  have h0 : statNumOfRow aggregateField row = some 0 := by
    rw [statNumOfRow, h]
    rfl
  refine ⟨h0, fun groupRows hmem => ?_⟩
  rw [statValues]
  exact List.mem_filterMap.mpr ⟨row, hmem, h0⟩

/-- Witness for C10: a row that lacks the aggregate column entirely. -/
theorem statNumOfRow_empty_eq_zero_witness :
    sanitizeValue (jsGet ([] : Row) "score".data) = [] ∧
    statNumOfRow "score".data ([] : Row) = some 0 ∧
    (0 : ℚ) ∈ statValues "score".data [([] : Row)] :=
  ⟨by decide,
    (statNumOfRow_empty_eq_zero "score".data [] (by decide)).1,
    (statNumOfRow_empty_eq_zero "score".data [] (by decide)).2 [[]]
      (List.mem_singleton.mpr rfl)⟩

theorem filter_cons_decide_pos (p : α → Prop) [DecidablePred p] (a : α) (l : List α)
    (h : p a) :
    (a :: l).filter (fun x => decide (p x)) = a :: l.filter (fun x => decide (p x)) :=
  List.filter_cons_of_pos (decide_eq_true h)

theorem filter_cons_decide_neg (p : α → Prop) [DecidablePred p] (a : α) (l : List α)
    (h : ¬ p a) :
    (a :: l).filter (fun x => decide (p x)) = l.filter (fun x => decide (p x)) :=
  List.filter_cons_of_neg (by simpa using h)

/-! ## Claim C5: duplicate-key policy of the subtraction engine -/

/-- Generalized last-write-wins characterization of the subtraction key-map
fold. -/
theorem subtractKeyMap_foldl_get (key k : Str) (hk : k ≠ []) (rows : List Row)
    (m : List (Str × Row)) :
    jsMapGet (rows.foldl
        (fun m row =>
          let keyValue := sanitizeValue (jsGet row key)
          if keyValue = [] then m else jsMapSet m keyValue row) m) k =
      ((rows.filter (fun r => sanitizeValue (jsGet r key) = k)).getLast?).or
        (jsMapGet m k) := by
  induction rows generalizing m with
  | nil => simp
  | cons row t ih =>
      rw [List.foldl_cons]
      by_cases hkv : sanitizeValue (jsGet row key) = k
      · rw [filter_cons_decide_pos (fun r => sanitizeValue (jsGet r key) = k) row t hkv]
        have hne : ¬ sanitizeValue (jsGet row key) = [] := by
          rw [hkv]; exact hk
        simp only [if_neg hne]
        rw [ih, getLast?_cons_or, Option.or_assoc]
        have hset : (jsMapGet (jsMapSet m (sanitizeValue (jsGet row key)) row) k) = some row := by
          rw [hkv]
          exact jsMapGet_set_self m k row
        rw [hset, Option.or_some]
      · rw [filter_cons_decide_neg (fun r => sanitizeValue (jsGet r key) = k) row t hkv]
        by_cases hempty : sanitizeValue (jsGet row key) = []
        · simp only [if_pos hempty]
          exact ih m
        · simp only [if_neg hempty]
          rw [ih, jsMapGet_set_ne m k _ row hkv]

/-- First-seen-wins characterization of `buildKeyIndex` (generalized over the
accumulator). -/
theorem buildKeyIndex_foldl_get (key k : Str) (hk : k ≠ []) (rows : List Row)
    (idx : KeyIndex) :
    jsMapGet ((rows.foldl
        (fun idx row =>
          let keyValue := sanitizeValue (jsGet row key)
          if keyValue = [] then { idx with missingKey := idx.missingKey + 1 }
          else if jsMapHas idx.map keyValue then
            { idx with duplicates := if idx.duplicates.contains keyValue then
                idx.duplicates else idx.duplicates ++ [keyValue] }
          else { idx with map := jsMapSet idx.map keyValue row }) idx).map) k =
      (jsMapGet idx.map k).or
        ((rows.filter (fun r => sanitizeValue (jsGet r key) = k)).head?) := by
  induction rows generalizing idx with
  | nil => simp
  | cons row t ih =>
      rw [List.foldl_cons]
      by_cases hempty : sanitizeValue (jsGet row key) = []
      · simp only [if_pos hempty]
        have hkv : ¬ sanitizeValue (jsGet row key) = k := by
          rw [hempty]; exact fun h => hk h.symm
        rw [filter_cons_decide_neg (fun r => sanitizeValue (jsGet r key) = k) row t hkv]
        exact ih _
      · simp only [if_neg hempty]
        by_cases hhas : jsMapHas idx.map (sanitizeValue (jsGet row key))
        · simp only [if_pos hhas]
          rw [ih]
          by_cases hkv : sanitizeValue (jsGet row key) = k
          · rw [filter_cons_decide_pos (fun r => sanitizeValue (jsGet r key) = k) row t hkv, List.head?_cons]
            rw [hkv] at hhas
            rw [jsMapHas] at hhas
            obtain ⟨v, hv⟩ := Option.isSome_iff_exists.mp hhas
            rw [hv, Option.or_some, Option.or_some]
          · rw [filter_cons_decide_neg (fun r => sanitizeValue (jsGet r key) = k) row t hkv]
        · simp only [if_neg hhas]
          rw [ih]
          by_cases hkv : sanitizeValue (jsGet row key) = k
          · rw [filter_cons_decide_pos (fun r => sanitizeValue (jsGet r key) = k) row t hkv, List.head?_cons]
            rw [hkv] at hhas ⊢
            rw [jsMapGet_set_self]
            have hnone : jsMapGet idx.map k = none := by
              cases hval : jsMapGet idx.map k with
              | none => rfl
              | some v =>
                  exact absurd (by rw [jsMapHas, hval]; rfl) hhas
            rw [hnone, Option.or_some]
            rfl
          · rw [filter_cons_decide_neg (fun r => sanitizeValue (jsGet r key) = k) row t hkv, jsMapGet_set_ne _ _ _ _ hkv]

/-- C5 (amended). In the Subtraction Engine's key→row map the LAST-seen row
wins on duplicate sanitized keys (`Map.set` overwrites), whereas the
Comparison Engine's `buildKeyIndex` keeps the FIRST-seen row — the two
policies differ. -/
theorem subtractKeyMap_lastSeen_buildKeyIndex_firstSeen
    (rows : List Row) (key k : Str) (hk : k ≠ []) :
    jsMapGet (subtractKeyMap rows key) k =
      (rows.filter (fun r => sanitizeValue (jsGet r key) = k)).getLast? ∧
    jsMapGet (buildKeyIndex rows key).map k =
      (rows.filter (fun r => sanitizeValue (jsGet r key) = k)).head? := by
  constructor
  · rw [subtractKeyMap, subtractKeyMap_foldl_get key k hk rows [], jsMapGet_nil,
      Option.or_none]
  · rw [buildKeyIndex, buildKeyIndex_foldl_get key k hk rows ⟨[], [], 0⟩]
    rfl

/-- Counterexample to C5 as stated: two rows share the sanitized key `"a"`;
the subtraction map keeps the second row, not the first-seen one. -/
theorem subtractKeyMap_not_firstSeen :
    jsMapGet (subtractKeyMap
        [[("k".data, "a".data), ("v".data, "1".data)],
         [("k".data, "a".data), ("v".data, "2".data)]] "k".data) "a".data =
      some [("k".data, "a".data), ("v".data, "2".data)] ∧
    ([("k".data, "a".data), ("v".data, "2".data)] : Row) ≠
      [("k".data, "a".data), ("v".data, "1".data)] ∧
    jsMapGet (buildKeyIndex
        [[("k".data, "a".data), ("v".data, "1".data)],
         [("k".data, "a".data), ("v".data, "2".data)]] "k".data).map "a".data =
      some [("k".data, "a".data), ("v".data, "1".data)] := by
  refine ⟨by decide, by decide, by decide⟩

/-- Witness for the amended C5 at the counterexample's input. -/
theorem subtractKeyMap_lastSeen_witness :
    ("a".data : Str) ≠ [] ∧
    jsMapGet (subtractKeyMap
        [[("k".data, "a".data), ("v".data, "1".data)],
         [("k".data, "a".data), ("v".data, "2".data)]] "k".data) "a".data =
      ([[("k".data, "a".data), ("v".data, "1".data)],
        [("k".data, "a".data), ("v".data, "2".data)]].filter
          (fun r => sanitizeValue (jsGet r "k".data) = "a".data)).getLast? :=
  ⟨by decide,
    (subtractKeyMap_lastSeen_buildKeyIndex_firstSeen _ "k".data "a".data
      (by decide)).1⟩

/-! ## Claim C6: comparison symmetry -/

theorem map_fst_filter (q : κ → Bool) (l : List (κ × α)) :
    (l.filter (fun p => q p.1)).map Prod.fst = (l.map Prod.fst).filter q := by
  induction l with
  | nil => rfl
  | cons p t ih => cases hq : q p.1 <;> simp [List.filter_cons, hq, ih]

/-- C6. `buildComparisonResult(A, B, key).onlyInBase` equals
`buildComparisonResult(B, A, key).onlyInTarget` — both are the keys of A's
index missing from B's index, in A's insertion order, sorted by the same
comparator. -/
theorem comparison_onlyIn_symm (cmp : Str → Str → Int)
    (A B : ParsedSheetData) (key : Str) :
    (buildComparisonResult cmp A B key).onlyInBase =
      (buildComparisonResult cmp B A key).onlyInTarget := by
  simp only [buildComparisonResult]
  congr 1
  exact map_fst_filter
    (fun keyValue => decide (¬ jsMapHas (buildKeyIndex B.rows key).map keyValue = true))
    (buildKeyIndex A.rows key).map

/-! ## Claim C7: subtraction completeness -/

/-- The sanitized non-empty key values of a row list, in row order. -/
def keyValuesOf (rows : List Row) (key : Str) : List Str :=
  (rows.map (fun r => sanitizeValue (jsGet r key))).filter (fun v => ¬ v = [])

/-- The number of distinct non-empty sanitized key values of a table. -/
def distinctKeyCount (rows : List Row) (key : Str) : Nat :=
  (dedupFirst (keyValuesOf rows key)).length

theorem keys_subtractKeyMap_foldl (key : Str) (rows : List Row)
    (m : List (Str × Row)) :
    ((rows.foldl
        (fun m row =>
          let keyValue := sanitizeValue (jsGet row key)
          if keyValue = [] then m else jsMapSet m keyValue row) m).map Prod.fst) =
      m.map Prod.fst ++ dedupFirstAux (m.map Prod.fst) (keyValuesOf rows key) := by
  induction rows generalizing m with
  | nil => simp [keyValuesOf, dedupFirstAux]
  | cons row t ih =>
      rw [List.foldl_cons]
      by_cases hempty : sanitizeValue (jsGet row key) = []
      · simp only [if_pos hempty]
        have : keyValuesOf (row :: t) key = keyValuesOf t key := by
          rw [keyValuesOf, List.map_cons,
            filter_cons_decide_neg (fun v => ¬ v = []) _ _ (by simp [hempty]),
            ← keyValuesOf]
        rw [this]
        exact ih m
      · simp only [if_neg hempty]
        have hkv : keyValuesOf (row :: t) key =
            sanitizeValue (jsGet row key) :: keyValuesOf t key := by
          rw [keyValuesOf, List.map_cons,
            filter_cons_decide_pos (fun v => ¬ v = []) _ _ hempty, ← keyValuesOf]
        rw [hkv, ih, keys_jsMapSet]
        by_cases hmem : sanitizeValue (jsGet row key) ∈ m.map Prod.fst
        · rw [if_pos hmem, dedupFirstAux, if_pos hmem]
        · rw [if_neg hmem, dedupFirstAux, if_neg hmem]
          rw [List.append_assoc, List.singleton_append]
          congr 2
          apply dedupFirstAux_congr_seen
          intro x
          simp [or_comm]

theorem keys_subtractKeyMap (rows : List Row) (key : Str) :
    (subtractKeyMap rows key).map Prod.fst = dedupFirst (keyValuesOf rows key) := by
  rw [subtractKeyMap, keys_subtractKeyMap_foldl key rows []]
  rfl

theorem nodup_keys_subtractKeyMap (rows : List Row) (key : Str) :
    ((subtractKeyMap rows key).map Prod.fst).Nodup := by
  rw [keys_subtractKeyMap]
  exact nodup_dedupFirst _

theorem length_filter_bool_split (q : α → Bool) (l : List α) :
    (l.filter (fun a => decide (¬ q a = true))).length + (l.filter q).length
      = l.length := by
  induction l with
  | nil => rfl
  | cons a t ih =>
      cases hq : q a
      · rw [List.filter_cons_of_pos (by simp [hq]), List.filter_cons_of_neg (by simp [hq])]
        simp only [List.length_cons]
        omega
      · rw [List.filter_cons_of_neg (by simp [hq]), List.filter_cons_of_pos hq]
        simp only [List.length_cons]
        omega

/-- Boolean list membership with a fixed computation path (avoids mixing
`BEq` instance chains across lemmas). -/
def memB [DecidableEq α] (a : α) : List α → Bool
  | [] => false
  | b :: t => a = b || memB a t

theorem memB_iff [DecidableEq α] (a : α) (l : List α) : memB a l = true ↔ a ∈ l := by
  induction l with
  | nil => simp [memB]
  | cons b t ih => simp [memB, ih]

theorem memB_eq_decide_mem [DecidableEq α] (a : α) (l : List α) :
    memB a l = decide (a ∈ l) := by
  by_cases h : a ∈ l
  · rw [decide_eq_true h, (memB_iff a l).mpr h]
  · rw [decide_eq_false h]
    cases hb : memB a l
    · rfl
    · exact absurd ((memB_iff a l).mp hb) h

theorem length_filter_memB_comm [DecidableEq α] (l1 l2 : List α)
    (h1 : l1.Nodup) (h2 : l2.Nodup) :
    (l1.filter (fun a => memB a l2)).length =
      (l2.filter (fun a => memB a l1)).length := by
  have hconv : ∀ (u v : List α),
      u.filter (fun a => memB a v) = u.filter (fun a => decide (a ∈ v)) :=
    fun u v => List.filter_congr (fun a _ => memB_eq_decide_mem a v)
  rw [hconv l1 l2, hconv l2 l1]
  have key : ∀ (u v : List α), u.Nodup →
      (u.filter (fun a => decide (a ∈ v))).length = (u.toFinset ∩ v.toFinset).card := by
    intro u v hu
    rw [← List.toFinset_card_of_nodup (List.Nodup.filter _ hu)]
    congr 1
    rw [List.toFinset_filter]
    ext x
    simp
  rw [key l1 l2 h1, key l2 l1 h2, Finset.inter_comm]

theorem jsMapHas_eq_keys_memB [DecidableEq κ] (m : List (κ × α)) (k : κ) :
    jsMapHas m k = memB k (m.map Prod.fst) := by
  rw [memB_eq_decide_mem]
  by_cases h : k ∈ m.map Prod.fst
  · rw [decide_eq_true h]
    exact (jsMapHas_iff_mem_keys m k).mpr h
  · rw [decide_eq_false h]
    cases hb : jsMapHas m k
    · rfl
    · exact absurd ((jsMapHas_iff_mem_keys m k).mp hb) h

/-- Pair filters whose predicate only looks at the key have the same length
as the corresponding key filter. -/
theorem length_filter_fst (q : κ → Bool) (l : List (κ × α)) :
    (l.filter (fun p => q p.1)).length = ((l.map Prod.fst).filter q).length := by
  rw [← map_fst_filter q l, List.length_map]

/-- C7. `|A-only| + |common| = |distinct keys of A|` and
`|B-only| + |common| = |distinct keys of B|`: every distinct non-empty
sanitized key of each table lands in exactly one partition it belongs to. -/
theorem subtract_partition_counts (base target : ParsedSheetData) (key : Str) :
    (subtractPartitions base target key).1.length +
      (subtractPartitions base target key).2.2.length =
      distinctKeyCount base.rows key ∧
    (subtractPartitions base target key).2.1.length +
      (subtractPartitions base target key).2.2.length =
      distinctKeyCount target.rows key := by
  have hbase := nodup_keys_subtractKeyMap base.rows key
  have htarget := nodup_keys_subtractKeyMap target.rows key
  constructor
  · rw [subtractPartitions]
    simp only [List.length_map]
    rw [length_filter_bool_split
      (fun p => jsMapHas (subtractKeyMap target.rows key) p.1)
      (subtractKeyMap base.rows key)]
    rw [distinctKeyCount, ← keys_subtractKeyMap, List.length_map]
  · rw [subtractPartitions]
    simp only [List.length_map]
    have hsplit := length_filter_bool_split
      (fun p => jsMapHas (subtractKeyMap base.rows key) p.1)
      (subtractKeyMap target.rows key)
    have hcomm :
        ((subtractKeyMap target.rows key).filter
          (fun p => jsMapHas (subtractKeyMap base.rows key) p.1)).length =
        ((subtractKeyMap base.rows key).filter
          (fun p => jsMapHas (subtractKeyMap target.rows key) p.1)).length := by
      rw [length_filter_fst, length_filter_fst]
      have e1 : List.filter (fun kv => jsMapHas (subtractKeyMap base.rows key) kv)
          ((subtractKeyMap target.rows key).map Prod.fst) =
          List.filter (fun kv => memB kv ((subtractKeyMap base.rows key).map Prod.fst))
          ((subtractKeyMap target.rows key).map Prod.fst) :=
        List.filter_congr (fun a _ => jsMapHas_eq_keys_memB _ a)
      have e2 : List.filter (fun kv => jsMapHas (subtractKeyMap target.rows key) kv)
          ((subtractKeyMap base.rows key).map Prod.fst) =
          List.filter (fun kv => memB kv ((subtractKeyMap target.rows key).map Prod.fst))
          ((subtractKeyMap base.rows key).map Prod.fst) :=
        List.filter_congr (fun a _ => jsMapHas_eq_keys_memB _ a)
      rw [e1, e2]
      exact length_filter_memB_comm _ _ htarget hbase
    rw [hcomm] at hsplit
    rw [hsplit, distinctKeyCount, ← keys_subtractKeyMap, List.length_map]

/-! ## Claim C1: per-column merge rule of the primary-key merge engine -/

/-- The merged value the specification prescribes for one column of a
multi-member group: empty for zero distinct sanitized non-empty values, the
value itself for exactly one, the `" | "`-join for several. -/
def specMergedValue (group : List Row) (key : Str) : Str :=
  let distinct := groupUniqueValues group key
  if distinct = [] then []
  else if distinct.length = 1 then distinct.headI
  else joinSep " | ".data distinct

theorem jsGet_cons (a : Str) (b : Str) (t : Row) (k : Str) :
    jsGet ((a, b) :: t) k = if k = a then some b else jsGet t k := by
  by_cases h : k = a
  · simp [jsGet, List.lookup, h]
  · have hb : (k == a) = false := beq_eq_false_iff_ne.mpr h
    simp [jsGet, List.lookup, hb, h]

theorem jsGet_map_keyed (l : List ImportedColumn) (g : Str → Str) (k : Str)
    (h : ∃ c ∈ l, c.key = k) :
    jsGet (l.map (fun c => (c.key, g c.key))) k = some (g k) := by
  induction l with
  | nil => simp at h
  | cons c t ih =>
      rw [List.map_cons, jsGet_cons]
      by_cases hk : k = c.key
      · rw [if_pos hk, hk]
      · rw [if_neg hk]
        apply ih
        obtain ⟨c2, hc2, hkey⟩ := h
        rcases List.mem_cons.mp hc2 with h1 | h1
        · exact absurd (h1 ▸ hkey).symm hk
        · exact ⟨c2, h1, hkey⟩

theorem mergeRawRows_mem_append (columns : List ImportedColumn)
    (entries : List (Str × List Row)) (acc : List Row × Nat × Nat) (x : Row)
    (h : x ∈ acc.1) :
    x ∈ (entries.foldl
      (fun (acc : List Row × Nat × Nat) entry =>
        if entry.2.length = 1 then (acc.1 ++ [entry.2.headI], acc.2)
        else
          (acc.1 ++ [(mergeGroup columns entry.2).1], acc.2.1 + (entry.2.length - 1),
           acc.2.2 + if (mergeGroup columns entry.2).2 = [] then 0 else 1)) acc).1 := by
  induction entries generalizing acc with
  | nil => exact h
  | cons e t ih =>
      rw [List.foldl_cons]
      by_cases h1 : e.2.length = 1
      · rw [if_pos h1]
        exact ih _ (List.mem_append_left _ h)
      · rw [if_neg h1]
        exact ih _ (List.mem_append_left _ h)

theorem mergeRawRows_mem_of_mem_groups (columns : List ImportedColumn)
    (entries : List (Str × List Row)) (acc : List Row × Nat × Nat)
    (keyValue : Str) (group : List Row)
    (hmem : (keyValue, group) ∈ entries) (hne : ¬ group.length = 1) :
    (mergeGroup columns group).1 ∈ (entries.foldl
      (fun (acc : List Row × Nat × Nat) entry =>
        if entry.2.length = 1 then (acc.1 ++ [entry.2.headI], acc.2)
        else
          (acc.1 ++ [(mergeGroup columns entry.2).1], acc.2.1 + (entry.2.length - 1),
           acc.2.2 + if (mergeGroup columns entry.2).2 = [] then 0 else 1)) acc).1 := by
  induction entries generalizing acc with
  | nil => simp at hmem
  | cons e t ih =>
      rw [List.foldl_cons]
      rcases List.mem_cons.mp hmem with h1 | h1
      · have he2 : e.2 = group := by rw [← h1]
        rw [if_neg (by rw [he2]; exact hne), he2]
        apply mergeRawRows_mem_append
        exact List.mem_append_right _ (List.mem_singleton.mpr rfl)
      · by_cases hlen : e.2.length = 1
        · rw [if_pos hlen]
          exact ih _ h1
        · rw [if_neg hlen]
          exact ih _ h1

/-- C1. For every group of raw records of size > 1 sharing a sanitized
primary-key value: each imported column of the merged record holds exactly
the value the specification prescribes (empty / unique value / `" | "`-join
of the distinct sanitized non-empty values), the group is flagged as
conflicting exactly when some column has more than one distinct value, and
the merged record is one of the rows the merge phase emits. -/
theorem merge_group_column_rule (columns : List ImportedColumn) (rows : List Row)
    (primaryKey keyValue : Str) (group : List Row)
    (hmem : (keyValue, group) ∈ (groupRawRows rows primaryKey).2)
    (hsize : 1 < group.length) :
    (∀ c ∈ columns,
        jsGet (mergeGroup columns group).1 c.key = some (specMergedValue group c.key)) ∧
    ((mergeGroup columns group).2 ≠ [] ↔
        ∃ c ∈ columns, 1 < (groupUniqueValues group c.key).length) ∧
    (mergeGroup columns group).1 ∈ (mergeRawRows columns rows primaryKey).1 := by
  refine ⟨?_, ?_, ?_⟩
  · intro c hc
    rw [mergeGroup]
    have hexp :
        (fun column : ImportedColumn =>
          (column.key,
            if groupUniqueValues group column.key = [] then []
            else if (groupUniqueValues group column.key).length = 1 then
              (groupUniqueValues group column.key).headI
            else joinSep " | ".data (groupUniqueValues group column.key))) =
        (fun column : ImportedColumn => (column.key, specMergedValue group column.key)) := by
      funext column
      rw [specMergedValue]
    rw [hexp]
    exact jsGet_map_keyed columns (fun k => specMergedValue group k) c.key ⟨c, hc, rfl⟩
  · rw [mergeGroup]
    constructor
    · intro h
      rcases List.exists_mem_of_ne_nil _ h with ⟨k, hk⟩
      rcases List.mem_map.mp hk with ⟨c, hc, hck⟩
      exact ⟨c, List.mem_of_mem_filter hc, by
        have := List.of_mem_filter hc
        simpa using this⟩
    · rintro ⟨c, hc, hlen⟩
      intro hnil
      rw [List.map_eq_nil_iff] at hnil
      have : c ∈ (columns.filter
          (fun column => 1 < (groupUniqueValues group column.key).length)) :=
        List.mem_filter.mpr ⟨hc, by simpa using hlen⟩
      rw [hnil] at this
      simp at this
  · rw [mergeRawRows]
    exact mergeRawRows_mem_of_mem_groups columns _ _ keyValue group hmem (by omega)

/-- Witness for C1 at the specification's own merge scenario: two rows with
primary key `"S001"` and names `"Alice"`/`"Alicia"`. -/
theorem merge_group_column_rule_witness :
    (("S001".data, [[("id".data, "S001".data), ("name".data, "Alice".data)],
                    [("id".data, "S001".data), ("name".data, "Alicia".data)]]) ∈
      (groupRawRows
        [[("id".data, "S001".data), ("name".data, "Alice".data)],
         [("id".data, "S001".data), ("name".data, "Alicia".data)]] "id".data).2) ∧
    jsGet (mergeGroup [⟨"id".data, .text, []⟩, ⟨"name".data, .text, []⟩]
        [[("id".data, "S001".data), ("name".data, "Alice".data)],
         [("id".data, "S001".data), ("name".data, "Alicia".data)]]).1 "name".data =
      some "Alice | Alicia".data :=
  ⟨by decide,
   by
    have h := (merge_group_column_rule
      [⟨"id".data, .text, []⟩, ⟨"name".data, .text, []⟩]
      [[("id".data, "S001".data), ("name".data, "Alice".data)],
       [("id".data, "S001".data), ("name".data, "Alicia".data)]]
      "id".data "S001".data
      [[("id".data, "S001".data), ("name".data, "Alice".data)],
       [("id".data, "S001".data), ("name".data, "Alicia".data)]]
      (by decide) (by decide)).1
    rw [h ⟨"name".data, .text, []⟩ (by decide)]
    decide⟩

/-! ## Claim C3: idempotence of pipeline stages 1–3 -/

theorem applyValueMappings_nil (v : Str) (f : FeishuField)
    (h : f.valueMappings = []) : applyValueMappings v f = v := by
  rw [applyValueMappings, if_pos (Or.inr h)]

theorem padZeros_idem (s : Str) (n : Nat) : padZeros (padZeros s n) n = padZeros s n := by
  by_cases h : n ≤ s.length
  · rw [show padZeros s n = s from by rw [padZeros, if_pos h]]
    rw [padZeros, if_pos h]
  · rw [show padZeros s n = List.replicate (n - s.length) '0' ++ s from by
      rw [padZeros, if_neg h]]
    rw [padZeros, if_pos (by
      rw [List.length_append, List.length_replicate]
      omega)]

theorem head?_replicate_pos (k : Nat) (c : Char) (h : 0 < k) :
    (List.replicate k c).head? = some c := by
  cases k with
  | zero => omega
  | succ m => rfl

theorem trim_padZeros (s : Str) (n : Nat) (hs : trim s = s) (hne : s ≠ []) :
    trim (padZeros s n) = padZeros s n := by
  rw [padZeros]
  by_cases h : n ≤ s.length
  · rw [if_pos h]; exact hs
  · rw [if_neg h]
    exact trim_append_eq_self _ s '0'
      (head?_replicate_pos _ _ (by omega)) (by decide) hs hne

theorem applyFixedLength_no_pad (x : Str) (f : FeishuField)
    (h : posLength f.fixedLength = false) : applyFixedLength x f = x := by
  rw [applyFixedLength]
  by_cases hx : x = []
  · rw [if_pos hx]
  · rw [if_neg hx]
    cases hfl : f.fixedLength with
    | none => rfl
    | some t =>
        have ht : ¬ (0 : Int) < t := by simpa [posLength, hfl] using h
        show (if t ≤ 0 then x else padZeros x t.toNat) = x
        rw [if_pos (by omega)]

theorem toLowerStr_append (a b : Str) : toLowerStr (a ++ b) = toLowerStr a ++ toLowerStr b :=
  List.map_append lowerChar a b

theorem startsWithL_append_self (p x : Str) : startsWithL (p ++ x) p = true := by
  induction p with
  | nil => cases x <;> rfl
  | cons c t ih => simp [startsWithL, ih]

/-- A freshly prefixed link value passes the `^https?:\/\/` test. -/
theorem startsHttp_https_append (c : Str) :
    startsHttp ("https://".data ++ c) = true := by
  rw [startsHttp, toLowerStr_append]
  have h8 : toLowerStr ("https://".data) = "https://".data := by decide
  rw [h8, startsWithL_append_self]
  simp

/-- Model of `normalizeForType` is idempotent in the `link` case. -/
theorem normalizeForType_link_idem (v : Str) :
    normalizeForType (normalizeForType v .link) .link = normalizeForType v .link := by
  by_cases hv : trim v = []
  · rw [show normalizeForType v .link = [] from by rw [normalizeForType, if_pos hv]]
    rfl
  · by_cases hh : startsHttp (trim v) = true
    · rw [show normalizeForType v .link = trim v from by
        rw [normalizeForType, if_neg hv, if_neg (by simp [hh])]]
      rw [normalizeForType, trim_trim, if_neg hv, if_neg (by simp [hh])]
    · rw [show normalizeForType v .link = "https://".data ++ trim v from by
        rw [normalizeForType, if_neg hv, if_pos ⟨rfl, by simpa using hh⟩]]
      have htr : trim ("https://".data ++ trim v) = "https://".data ++ trim v :=
        trim_append_eq_self _ _ 'h' rfl (by decide) (trim_trim v) hv
      rw [normalizeForType, htr]
      rw [if_neg (by simp),
        if_neg (fun hand => hand.2 (startsHttp_https_append (trim v)))]

/-- Model of `normalizeForType` for non-link types is `trim`. -/
theorem normalizeForType_not_link (v : Str) (t : FieldType) (ht : t ≠ .link) :
    normalizeForType v t = trim v := by
  rw [normalizeForType]
  by_cases hv : trim v = []
  · rw [if_pos hv, hv]
  · rw [if_neg hv, if_neg (fun hand => ht hand.1)]

/-- C3 (amended). Stages 1–3 of the pipeline are idempotent for every field
with no value-mapping rules whose type is not `link`-with-positive-
`fixedLength`; with a mapping chain (`b→a`, `a→c`) or a padded link the
composition is not idempotent. -/
theorem pipelineStages_idem (f : FeishuField) (hvm : f.valueMappings = [])
    (hlink : f.type ≠ .link ∨ posLength f.fixedLength = false) (v : Str) :
    pipelineStages f (pipelineStages f v) = pipelineStages f v := by
  rw [pipelineStages, pipelineStages,
    applyValueMappings_nil _ _ hvm, applyValueMappings_nil _ _ hvm]
  rcases hlink with ht | hfl
  · rw [normalizeForType_not_link v f.type ht]
    by_cases hv : trim v = []
    · rw [hv]
      rw [show applyFixedLength [] f = [] from by rw [applyFixedLength, if_pos rfl]]
      rw [normalizeForType_not_link [] f.type ht]
      rw [show trim [] = [] from rfl]
      rw [show applyFixedLength [] f = [] from by rw [applyFixedLength, if_pos rfl]]
    · cases hfl : f.fixedLength with
      | none =>
          have hw : applyFixedLength (trim v) f = trim v := by
            rw [applyFixedLength, if_neg hv, hfl]
          rw [hw, normalizeForType_not_link _ f.type ht, trim_trim, hw]
      | some t =>
          by_cases htpos : t ≤ 0
          · have hw : applyFixedLength (trim v) f = trim v := by
              rw [applyFixedLength, if_neg hv, hfl]
              show (if t ≤ 0 then trim v else padZeros (trim v) t.toNat) = trim v
              rw [if_pos htpos]
            rw [hw, normalizeForType_not_link _ f.type ht, trim_trim, hw]
          · have hw : applyFixedLength (trim v) f = padZeros (trim v) t.toNat := by
              rw [applyFixedLength, if_neg hv, hfl]
              show (if t ≤ 0 then trim v else padZeros (trim v) t.toNat) =
                padZeros (trim v) t.toNat
              rw [if_neg htpos]
            have hpadne : padZeros (trim v) t.toNat ≠ [] := by
              rw [padZeros]
              by_cases hle : t.toNat ≤ (trim v).length
              · rw [if_pos hle]; exact hv
              · rw [if_neg hle]
                intro hcontra
                rw [List.append_eq_nil] at hcontra
                exact hv hcontra.2
            rw [hw, normalizeForType_not_link _ f.type ht,
              trim_padZeros _ _ (trim_trim v) hv,
              applyFixedLength, if_neg hpadne, hfl]
            show (if t ≤ 0 then padZeros (trim v) t.toNat
              else padZeros (padZeros (trim v) t.toNat) t.toNat) =
              padZeros (trim v) t.toNat
            rw [if_neg htpos, padZeros_idem]
  · rw [applyFixedLength_no_pad _ _ hfl, applyFixedLength_no_pad _ _ hfl]
    by_cases ht : f.type = .link
    · rw [ht]
      exact normalizeForType_link_idem v
    · rw [normalizeForType_not_link _ _ ht, normalizeForType_not_link _ _ ht, trim_trim]

/-- Counterexample to C3 as stated: with the mapping chain `b→a`, `a→c`,
running stages 1–3 on the already-processed output `"a"` yields `"c"`. -/
theorem pipelineStages_not_idempotent :
    pipelineStages
        ⟨0, "f".data, .text, none, false, [],
          [⟨0, "b".data, "a".data⟩, ⟨1, "a".data, "c".data⟩], none⟩
        (pipelineStages
          ⟨0, "f".data, .text, none, false, [],
            [⟨0, "b".data, "a".data⟩, ⟨1, "a".data, "c".data⟩], none⟩ "b".data) ≠
      pipelineStages
        ⟨0, "f".data, .text, none, false, [],
          [⟨0, "b".data, "a".data⟩, ⟨1, "a".data, "c".data⟩], none⟩ "b".data := by
  decide

/-- Witness for the amended C3 on a plain text field and an untrimmed
value. -/
theorem pipelineStages_idem_witness :
    (FeishuField.valueMappings ⟨0, "g".data, .text, none, false, [], [], none⟩ = []) ∧
    (FieldType.text ≠ FieldType.link) ∧
    pipelineStages ⟨0, "g".data, .text, none, false, [], [], none⟩
        (pipelineStages ⟨0, "g".data, .text, none, false, [], [], none⟩ " x ".data) =
      pipelineStages ⟨0, "g".data, .text, none, false, [], [], none⟩ " x ".data :=
  ⟨rfl, by decide,
    pipelineStages_idem ⟨0, "g".data, .text, none, false, [], [], none⟩ rfl
      (Or.inl (by decide)) " x ".data⟩

/-! ## Claim C4: the extractOptions round-trip -/

/-- C4 (amended, positive part). For a non-required `singleSelect` field
whose option list is `extractOptions` of its own trimmed output values, with
at most the limit (20) distinct non-empty values, every output value passes
`validateValue`. -/
theorem extractOptions_roundtrip_singleSelect (vs : List Str) (f : FeishuField)
    (okey : Str)
    (htype : f.type = .singleSelect)
    (hreq : f.required = false)
    (hopts : f.options = extractOptions (vs.map (fun v => [(okey, v)])) okey 20)
    (htrim : ∀ v ∈ vs, trim v = v)
    (hcard : (dedupFirst (vs.filter (fun v => ¬ v = []))).length ≤ 20) :
    ∀ v ∈ vs, validateValue v f = none := by
  intro v hv
  have hopts_eq : extractOptions (vs.map (fun v => [(okey, v)])) okey 20
      = dedupFirst (vs.filter (fun v => ¬ v = [])) := by
    rw [extractOptions]
    have hmap : (vs.map (fun v => [(okey, v)])).map
        (fun r => sanitizeValue (jsGet r okey)) = vs := by
      rw [List.map_map]
      have hcomp : ((fun r => sanitizeValue (jsGet r okey)) ∘
          (fun v : Str => [(okey, v)])) = fun v : Str => trim v := by
        funext w
        simp only [Function.comp, jsGet_cons, if_pos rfl]
        rfl
      rw [hcomp]
      rw [List.map_congr_left htrim]
      simp
    rw [hmap]
    exact List.take_of_length_le hcard
  rw [validateValue, hreq, htype, hopts, hopts_eq]
  by_cases hve : v = []
  · rw [validateCore, if_pos hve, if_neg (by simp)]
  · rw [validateCore, if_neg hve]
    have hmem : v ∈ dedupFirst (vs.filter (fun v => ¬ v = [])) :=
      (mem_dedupFirst _ v).mpr (List.mem_filter.mpr ⟨hv, by simpa using hve⟩)
    have hcontains : (dedupFirst (vs.filter (fun v => ¬ v = []))).contains v = true :=
      List.elem_iff.mpr hmem
    show (if dedupFirst (vs.filter (fun v => ¬ v = [])) ≠ [] ∧
        ¬ (dedupFirst (vs.filter (fun v => ¬ v = []))).contains v = true then
        some errRange else none) = none
    rw [if_neg (fun hand => hand.2 hcontains)]

/-- Counterexample to C4 as stated: for a `multiSelect` field, the output
value `"a、b"` becomes its own (single) option, but validation splits it on
the separator and rejects both parts. -/
theorem extractOptions_roundtrip_fails_multiSelect :
    extractOptions [[("k".data, "a、b".data)]] "k".data 20 = ["a、b".data] ∧
    validateValue "a、b".data
        ⟨0, "m".data, .multiSelect, none, false,
          extractOptions [[("k".data, "a、b".data)]] "k".data 20, [], none⟩ =
      some errUndefinedOpt := by
  refine ⟨by decide, by decide⟩

/-- Witness for the amended C4 on two trimmed values. -/
theorem extractOptions_roundtrip_singleSelect_witness :
    validateValue "a".data
        ⟨0, "s".data, .singleSelect, none, false,
          extractOptions (["a".data, "b".data].map (fun v => [("k".data, v)]))
            "k".data 20, [], none⟩ = none :=
  extractOptions_roundtrip_singleSelect ["a".data, "b".data]
    ⟨0, "s".data, .singleSelect, none, false,
      extractOptions (["a".data, "b".data].map (fun v => [("k".data, v)]))
        "k".data 20, [], none⟩
    "k".data rfl rfl rfl (by decide) (by decide) "a".data (by decide)

/-! ## Claim C2: positional characterization of buildImportedFieldLayout

The id-free "shape" of a field: everything except the generated
`id`s. Two fields with the same shape behave identically in the pipeline. -/

/-- A value mapping without its generated id. -/
def vmShape (m : FieldValueMapping) : Str × Str := (m.fromS, m.toS)

/-- A target field without its generated ids. -/
structure FieldShape where
  name : Str
  type : FieldType
  sourceKey : Option Str
  required : Bool
  options : List Str
  vmaps : List (Str × Str)
  fixedLength : Option Int
  deriving DecidableEq, Repr

/-- Erase the generated ids of a field. -/
def fieldShape (f : FeishuField) : FieldShape :=
  ⟨f.name, f.type, f.sourceKey, f.required, f.options,
   f.valueMappings.map vmShape, f.fixedLength⟩

/-- The shape of the fallback field `buildFieldFromColumn` produces for a
column. -/
def fallbackShape (column : ImportedColumn) (rows : List Row) : FieldShape :=
  ⟨column.key, column.inferredType, some column.key, false,
   (if column.inferredType = .singleSelect ∨ column.inferredType = .multiSelect then
     extractOptions rows column.key else []), [], none⟩

/-- The shape of the field a catalogue template produces for the column with
key `key`. -/
def templateShape (config : DefaultFieldConfig) (key : Str) (rows : List Row) :
    FieldShape :=
  ⟨config.label, config.type, some key, false,
   (if config.type = .singleSelect ∨ config.type = .multiSelect then
     config.options.getD (extractOptions rows key) else []),
   config.valueMappingPresets.getD [], none⟩

/-- The shapes of the template fields, in catalogue order: one per catalogue
entry whose keywords match some column (always the first matching column). -/
def defaultShapes (columns : List ImportedColumn) (rows : List Row) : List FieldShape :=
  DEFAULT_FIELD_CONFIGS.filterMap (fun config =>
    (findColumnByKeywords columns config.keywords).map
      (fun col => templateShape config col.key rows))

/-- The template shape that wins for source key `k`: the LAST catalogue entry
whose matched column has key `k` (later `Map.set` calls overwrite earlier
ones), none for the empty key. -/
def lastTemplateFor (columns : List ImportedColumn) (rows : List Row) (k : Str) :
    Option FieldShape :=
  if k = [] then none else
  ((defaultShapes columns rows).filter (fun sh => sh.sourceKey = some k)).getLast?

theorem allocValueMappings_shapes (ps : List (Str × Str)) (n : Nat) :
    (allocValueMappings ps n).1.map vmShape = ps := by
  induction ps generalizing n with
  | nil => rfl
  | cons p rest ih =>
      obtain ⟨a, b⟩ := p
      rw [allocValueMappings]
      simp only [List.map_cons, ih]
      rfl

theorem buildTemplateField_shape (config : DefaultFieldConfig)
    (column : ImportedColumn) (rows : List Row) (n : Nat) :
    fieldShape (buildTemplateField config column rows n).1 =
      templateShape config column.key rows := by
  rw [buildTemplateField, fieldShape, templateShape]
  simp only [allocValueMappings_shapes]

theorem buildFieldFromColumn_shape (column : ImportedColumn) (rows : List Row)
    (n : Nat) :
    fieldShape (buildFieldFromColumn column rows n).1 = fallbackShape column rows := rfl

theorem buildFallbackFields_shapes (columns : List ImportedColumn) (rows : List Row)
    (n : Nat) :
    (buildFallbackFields columns rows n).1.map fieldShape =
      columns.map (fun c => fallbackShape c rows) := by
  induction columns generalizing n with
  | nil => rfl
  | cons c rest ih =>
      rw [buildFallbackFields]
      simp only [List.map_cons, ih, buildFieldFromColumn_shape]

theorem buildDefaultFieldsAux_shapes (configs : List DefaultFieldConfig)
    (columns : List ImportedColumn) (rows : List Row) (n : Nat) :
    (buildDefaultFieldsAux configs columns rows n).1.map fieldShape =
      configs.filterMap (fun config =>
        (findColumnByKeywords columns config.keywords).map
          (fun col => templateShape config col.key rows)) := by
  induction configs generalizing n with
  | nil => rfl
  | cons config rest ih =>
      rw [buildDefaultFieldsAux, List.filterMap_cons]
      cases hfind : findColumnByKeywords columns config.keywords with
      | none => exact ih n
      | some col =>
          simp only [List.map_cons, ih, buildTemplateField_shape, Option.map_some]
          rfl

theorem buildDefaultFields_shapes (columns : List ImportedColumn) (rows : List Row)
    (n : Nat) :
    (buildDefaultFields columns rows n).1.map fieldShape = defaultShapes columns rows :=
  buildDefaultFieldsAux_shapes DEFAULT_FIELD_CONFIGS columns rows n

/-- The image of an association map under shape erasure. -/
def shapeMapOf (m : List (Str × FeishuField)) : List (Str × FieldShape) :=
  m.map (fun p => (p.1, fieldShape p.2))

/-- The shape-level analogue of `defaultBySourceKey`. -/
def defaultShapeMap (shapes : List FieldShape) : List (Str × FieldShape) :=
  shapes.foldl
    (fun m sh => if strFalsy sh.sourceKey then m
      else jsMapSet m (sh.sourceKey.getD []) sh)
    []

theorem jsMapSet_cons [DecidableEq κ] (a : κ) (b : α) (t : List (κ × α))
    (k : κ) (v : α) :
    jsMapSet ((a, b) :: t) k v =
      if a = k then (a, v) :: t else (a, b) :: jsMapSet t k v := rfl

theorem shapeMapOf_jsMapSet (m : List (Str × FeishuField)) (k : Str) (f : FeishuField) :
    shapeMapOf (jsMapSet m k f) = jsMapSet (shapeMapOf m) k (fieldShape f) := by
  induction m with
  | nil => rfl
  | cons p t ih =>
      obtain ⟨a, b⟩ := p
      by_cases hak : a = k
      · rw [jsMapSet_cons, if_pos hak]
        show ((a, fieldShape f) :: shapeMapOf t) =
          jsMapSet ((a, fieldShape b) :: shapeMapOf t) k (fieldShape f)
        rw [jsMapSet_cons, if_pos hak]
      · rw [jsMapSet_cons, if_neg hak]
        show ((a, fieldShape b) :: shapeMapOf (jsMapSet t k f)) =
          jsMapSet ((a, fieldShape b) :: shapeMapOf t) k (fieldShape f)
        rw [ih, jsMapSet_cons, if_neg hak]

theorem shapeMapOf_defaultBySourceKey_foldl (dfs : List FeishuField)
    (m : List (Str × FeishuField)) :
    shapeMapOf (dfs.foldl
        (fun m f => if strFalsy f.sourceKey then m
          else jsMapSet m (f.sourceKey.getD []) f) m) =
      (dfs.map fieldShape).foldl
        (fun m sh => if strFalsy sh.sourceKey then m
          else jsMapSet m (sh.sourceKey.getD []) sh)
        (shapeMapOf m) := by
  induction dfs generalizing m with
  | nil => rfl
  | cons f t ih =>
      rw [List.foldl_cons, List.map_cons, List.foldl_cons]
      have hsk : (fieldShape f).sourceKey = f.sourceKey := rfl
      by_cases hfal : strFalsy f.sourceKey
      · rw [if_pos hfal, if_pos (by rw [hsk]; exact hfal)]
        exact ih m
      · rw [if_neg hfal, if_neg (by rw [hsk]; exact hfal), hsk, ih,
          shapeMapOf_jsMapSet]

theorem shapeMapOf_defaultBySourceKey (dfs : List FeishuField) :
    shapeMapOf (defaultBySourceKey dfs) = defaultShapeMap (dfs.map fieldShape) := by
  rw [defaultBySourceKey, defaultShapeMap]
  exact shapeMapOf_defaultBySourceKey_foldl dfs []

theorem jsMapGet_shapeMapOf (m : List (Str × FeishuField)) (k : Str) :
    jsMapGet (shapeMapOf m) k = Option.map fieldShape (jsMapGet m k) := by
  induction m with
  | nil => rfl
  | cons p t ih =>
      obtain ⟨a, b⟩ := p
      rw [shapeMapOf, List.map_cons, ← shapeMapOf, jsMapGet_cons, jsMapGet_cons]
      by_cases hak : k = a
      · rw [if_pos hak, if_pos hak]
        rfl
      · rw [if_neg hak, if_neg hak, ih]

/-- Last-wins lookup of the shape-level source-key map. -/
theorem defaultShapeMap_foldl_get (shapes : List FieldShape)
    (m : List (Str × FieldShape)) (k : Str) (hk : k ≠ []) :
    jsMapGet (shapes.foldl
        (fun m sh => if strFalsy sh.sourceKey then m
          else jsMapSet m (sh.sourceKey.getD []) sh) m) k =
      ((shapes.filter (fun sh => sh.sourceKey = some k)).getLast?).or (jsMapGet m k) := by
  induction shapes generalizing m with
  | nil => simp
  | cons sh t ih =>
      rw [List.foldl_cons]
      by_cases hfal : strFalsy sh.sourceKey
      · rw [if_pos hfal]
        have hne : ¬ sh.sourceKey = some k := by
          intro hsk
          rw [strFalsy, hsk] at hfal
          exact hk (by simpa using hfal)
        rw [filter_cons_decide_neg (fun sh : FieldShape => sh.sourceKey = some k) _ _ hne]
        exact ih m
      · rw [if_neg hfal]
        have hsome : sh.sourceKey = some (sh.sourceKey.getD []) := by
          cases hsk : sh.sourceKey with
          | none => rw [strFalsy, hsk] at hfal; simp at hfal
          | some w => rfl
        by_cases hkv : sh.sourceKey.getD [] = k
        · rw [filter_cons_decide_pos (fun sh : FieldShape => sh.sourceKey = some k) _ _
            (by show sh.sourceKey = some k; rw [hsome, hkv])]
          rw [ih, getLast?_cons_or, Option.or_assoc, hkv, jsMapGet_set_self,
            Option.or_some]
        · rw [filter_cons_decide_neg (fun sh : FieldShape => sh.sourceKey = some k) _ _
            (by
              show ¬ sh.sourceKey = some k
              rw [hsome]
              exact fun hc => hkv (by simpa using hc))]
          rw [ih, jsMapGet_set_ne _ _ _ _ hkv]

/-- Shape of the in-place override step of `buildImportedFieldLayout`, one
fallback field at a time. -/
theorem layout_replace_shape (cols : List ImportedColumn) (rows : List Row)
    (dfs : List FeishuField) (f : FeishuField) (c : ImportedColumn)
    (hshape : fieldShape f = fallbackShape c rows)
    (hdfs : dfs.map fieldShape = defaultShapes cols rows) :
    fieldShape (if strFalsy f.sourceKey then f
      else (jsMapGet (defaultBySourceKey dfs) (f.sourceKey.getD [])).getD f) =
      (lastTemplateFor cols rows c.key).getD (fallbackShape c rows) := by
  have hsk : f.sourceKey = some c.key := by
    have := congrArg FieldShape.sourceKey hshape
    simpa [fieldShape, fallbackShape] using this
  by_cases hkey : c.key = []
  · rw [if_pos (by rw [strFalsy, hsk, hkey]; rfl)]
    rw [lastTemplateFor, if_pos hkey]
    rw [hshape]
    rfl
  · rw [if_neg (by rw [strFalsy, hsk]; simpa using hkey)]
    have hget : Option.map fieldShape (jsMapGet (defaultBySourceKey dfs)
        (f.sourceKey.getD [])) = lastTemplateFor cols rows c.key := by
      rw [← jsMapGet_shapeMapOf, shapeMapOf_defaultBySourceKey, hdfs,
        defaultShapeMap, hsk]
      rw [show (some c.key).getD ([] : Str) = c.key from rfl]
      rw [defaultShapeMap_foldl_get _ _ _ hkey]
      rw [lastTemplateFor, if_neg hkey]
      rw [show jsMapGet ([] : List (Str × FieldShape)) c.key = none from rfl,
        Option.or_none]
    cases hlook : jsMapGet (defaultBySourceKey dfs) (f.sourceKey.getD []) with
    | none =>
        rw [hlook] at hget
        rw [Option.getD_none, hshape, ← hget]
        rfl
    | some d =>
        rw [hlook] at hget
        rw [Option.getD_some, ← hget]
        rfl

theorem map_shape_replace (cols : List ImportedColumn) (rows : List Row)
    (dfs : List FeishuField) (hdfs : dfs.map fieldShape = defaultShapes cols rows)
    (fbs : List FeishuField) (cs : List ImportedColumn)
    (hfbs : fbs.map fieldShape = cs.map (fun c => fallbackShape c rows)) :
    (fbs.map (fun f => if strFalsy f.sourceKey then f
      else (jsMapGet (defaultBySourceKey dfs) (f.sourceKey.getD [])).getD f)).map
        fieldShape =
      cs.map (fun c => (lastTemplateFor cols rows c.key).getD (fallbackShape c rows)) := by
  induction fbs generalizing cs with
  | nil =>
      cases cs with
      | nil => rfl
      | cons c t => simp at hfbs
  | cons f t ih =>
      cases cs with
      | nil => simp at hfbs
      | cons c ct =>
          simp only [List.map_cons] at hfbs ⊢
          injection hfbs with h1 h2
          rw [layout_replace_shape cols rows dfs f c h1 hdfs, ih ct h2]

/-- Master characterization: the shapes of `buildImportedFieldLayout`, one per
column in column order — the last matching template's shape when the column
is the first match of some catalogue entry, the fallback shape otherwise.
Independent of the id counter. -/
theorem layout_shapes (cols : List ImportedColumn) (rows : List Row) (n : Nat) :
    (buildImportedFieldLayout cols rows n).1.map fieldShape =
      cols.map (fun c => (lastTemplateFor cols rows c.key).getD (fallbackShape c rows)) := by
  rw [buildImportedFieldLayout]
  by_cases hcols : cols = []
  · rw [if_pos hcols, hcols]
    rfl
  · rw [if_neg hcols]
    simp only []
    by_cases hdfs : (buildDefaultFields cols rows (buildFallbackFields cols rows n).2).1 = []
    · rw [if_pos hdfs]
      have hds : defaultShapes cols rows = [] := by
        rw [← buildDefaultFields_shapes cols rows (buildFallbackFields cols rows n).2,
          hdfs]
        rfl
      rw [buildFallbackFields_shapes]
      apply List.map_congr_left
      intro c _
      rw [lastTemplateFor]
      by_cases hk : c.key = []
      · rw [if_pos hk]
        rfl
      · rw [if_neg hk, hds]
        rfl
    · rw [if_neg hdfs]
      exact map_shape_replace cols rows _
        (buildDefaultFields_shapes cols rows (buildFallbackFields cols rows n).2)
        _ cols (buildFallbackFields_shapes cols rows n)

/-- C2 (amended). The field layout has exactly one field per column in column
order, and is empty exactly when the column list is empty; position `i` holds
the template-produced field exactly when column `i` is the FIRST column
matching some catalogue template's keywords (the last such template winning),
and the fallback field (verbatim name, inferred type) otherwise — a later
column matching the same keywords keeps its fallback field. -/
theorem buildImportedFieldLayout_positions (cols : List ImportedColumn)
    (rows : List Row) (n : Nat) :
    ((buildImportedFieldLayout cols rows n).1.map fieldShape =
      cols.map (fun c => (lastTemplateFor cols rows c.key).getD (fallbackShape c rows))) ∧
    (buildImportedFieldLayout cols rows n).1.length = cols.length ∧
    ((buildImportedFieldLayout cols rows n).1 = [] ↔ cols = []) := by
  have h := layout_shapes cols rows n
  refine ⟨h, ?_, ?_⟩
  · have := congrArg List.length h
    simpa using this
  · constructor
    · intro hnil
      have := congrArg List.length h
      rw [hnil] at this
      simpa using (List.length_eq_zero.mp (by simpa using this.symm))
    · intro hnil
      rw [buildImportedFieldLayout, if_pos hnil]

/-- Counterexample to C2 as stated: both columns `姓名1` and `姓名2` contain
the template keyword `姓名`, but only the first-matching column receives the
template field (named `姓名`); the second keeps its verbatim fallback name
`姓名2`. -/
theorem layout_second_match_keeps_fallback :
    (DEFAULT_FIELD_CONFIGS.any (fun config => config.keywords.any (fun kw =>
        containsSub (toLowerStr (normalizeKey "姓名2".data))
          (toLowerStr (normalizeKey kw)))) = true) ∧
    ((buildImportedFieldLayout
        [⟨"姓名1".data, .text, []⟩, ⟨"姓名2".data, .text, []⟩] [] 0).1.map
      FeishuField.name) = ["姓名".data, "姓名2".data] := by
  refine ⟨by decide, by decide⟩

/-! ## Claim C8: purity of the comparison and subtraction engines

`buildComparisonResult` consumes no generated ids at all (its embedding takes
no id counter).  `buildResultData` does: the field ids inside a
`SubtractResult` come from the hidden generator state.  Erasing the ids
yields a pure function of the inputs. -/

/-- Model of `applyValueMappings` as a function of the id-free mapping shapes. -/
def applyValueMappingsS (value : Str) (ps : List (Str × Str)) : Str :=
  if value = [] ∨ ps = [] then value else
  match ps.find? (fun p => toLowerStr (trim p.1) = toLowerStr (trim value)) with
  | none => value
  | some p => p.2

theorem find?_vmShape (ms : List FieldValueMapping) (nrm : Str) :
    (ms.map vmShape).find? (fun p => toLowerStr (trim p.1) = nrm) =
      Option.map vmShape (ms.find? (fun m => toLowerStr (trim m.fromS) = nrm)) := by
  induction ms with
  | nil => rfl
  | cons m t ih =>
      rw [List.map_cons]
      by_cases hm : toLowerStr (trim m.fromS) = nrm
      · rw [List.find?_cons_of_pos _ (by simpa [vmShape] using hm),
          List.find?_cons_of_pos _ (by simpa using hm)]
        rfl
      · rw [List.find?_cons_of_neg _ (by simpa [vmShape] using hm),
          List.find?_cons_of_neg _ (by simpa using hm), ih]

theorem applyValueMappings_eq_shapes (value : Str) (f : FeishuField) :
    applyValueMappings value f = applyValueMappingsS value (f.valueMappings.map vmShape) := by
  rw [applyValueMappings, applyValueMappingsS]
  by_cases hv : value = []
  · rw [if_pos (Or.inl hv), if_pos (Or.inl hv)]
  · by_cases hm : f.valueMappings = []
    · rw [if_pos (Or.inr hm), if_pos (Or.inr (by rw [hm]; rfl))]
    · rw [if_neg (by
        rintro (h | h)
        · exact hv h
        · exact hm h),
        if_neg (by
        rintro (h | h)
        · exact hv h
        · exact hm (List.map_eq_nil_iff.mp h))]
      rw [find?_vmShape]
      show (match List.find?
          (fun m => decide (toLowerStr (trim m.fromS) = toLowerStr (trim value)))
          f.valueMappings with
        | none => value
        | some rule => rule.toS) =
        (match Option.map vmShape (List.find?
          (fun m => decide (toLowerStr (trim m.fromS) = toLowerStr (trim value)))
          f.valueMappings) with
        | none => value
        | some p => p.2)
      cases List.find?
          (fun m => decide (toLowerStr (trim m.fromS) = toLowerStr (trim value)))
          f.valueMappings with
      | none => rfl
      | some m => rfl

theorem validateValue_shape_congr (value : Str) (f g : FeishuField)
    (h : fieldShape f = fieldShape g) : validateValue value f = validateValue value g := by
  have hr : f.required = g.required := congrArg FieldShape.required h
  have ht : f.type = g.type := congrArg FieldShape.type h
  have ho : f.options = g.options := congrArg FieldShape.options h
  rw [validateValue, validateValue, hr, ht, ho]

theorem applyFixedLength_congr (value : Str) (f g : FeishuField)
    (h : f.fixedLength = g.fixedLength) : applyFixedLength value f = applyFixedLength value g := by
  rw [applyFixedLength, applyFixedLength, h]

theorem mappedCell_shape_congr (f g : FeishuField) (raw : Row)
    (h : fieldShape f = fieldShape g) : mappedCell f raw = mappedCell g raw := by
  have hsk : f.sourceKey = g.sourceKey := congrArg FieldShape.sourceKey h
  have ht : f.type = g.type := congrArg FieldShape.type h
  have hfl : f.fixedLength = g.fixedLength := congrArg FieldShape.fixedLength h
  have hvm : f.valueMappings.map vmShape = g.valueMappings.map vmShape :=
    congrArg FieldShape.vmaps h
  rw [mappedCell, mappedCell, pipelineStages, pipelineStages,
    applyValueMappings_eq_shapes, applyValueMappings_eq_shapes,
    hsk, ht, hvm, applyFixedLength_congr _ f g hfl]

/-- The id-free view of a `TableRow`: row id, values in field order, error
strings in field order. -/
def eraseTableRow (r : TableRow) : Str × List Str × List Str :=
  (r.rowId, r.values.map Prod.snd, r.errors.map Prod.snd)

/-- The id-free view of a `SubtractResult`. -/
def eraseSubtractResult (r : SubtractResult) :
    SubtractResultType × List FieldShape × List (Str × List Str × List Str) :=
  (r.type, r.fields.map fieldShape, r.rows.map eraseTableRow)

/-- The error-string list of one mapped row, in field order. -/
def rowErrorList (fields : List FeishuField) (raw : Row) : List Str :=
  fields.foldr
    (fun field es =>
      match validateValue (mappedCell field raw) field with
      | none => es
      | some e => e :: es)
    []

theorem map_snd_error_foldr (fields : List FeishuField) (raw : Row) :
    (fields.foldr
      (fun field es =>
        match validateValue (mappedCell field raw) field with
        | none => es
        | some e => (field.id, e) :: es)
      ([] : List (Nat × Str))).map Prod.snd = rowErrorList fields raw := by
  induction fields with
  | nil => rfl
  | cons f t ih =>
      rw [List.foldr_cons, rowErrorList, List.foldr_cons, ← rowErrorList]
      cases validateValue (mappedCell f raw) f with
      | none => exact ih
      | some e => rw [List.map_cons, ih]

theorem eraseTableRow_mapRawRow (fields : List FeishuField) (rowId : Str) (raw : Row) :
    eraseTableRow (mapRawRow fields rowId raw) =
      (rowId, fields.map (fun f => mappedCell f raw), rowErrorList fields raw) := by
  rw [eraseTableRow, mapRawRow]
  refine congrArg (Prod.mk rowId) (congrArg₂ Prod.mk ?_ ?_)
  · rw [List.map_map]
    rfl
  · exact map_snd_error_foldr fields raw

theorem map_mappedCell_congr (fields fields2 : List FeishuField) (raw : Row)
    (h : fields.map fieldShape = fields2.map fieldShape) :
    fields.map (fun f => mappedCell f raw) = fields2.map (fun f => mappedCell f raw) := by
  induction fields generalizing fields2 with
  | nil =>
      cases fields2 with
      | nil => rfl
      | cons g t => simp at h
  | cons f t ih =>
      cases fields2 with
      | nil => simp at h
      | cons g t2 =>
          simp only [List.map_cons] at h ⊢
          injection h with h1 h2
          rw [mappedCell_shape_congr f g raw h1, ih t2 h2]

theorem rowErrorList_congr (fields fields2 : List FeishuField) (raw : Row)
    (h : fields.map fieldShape = fields2.map fieldShape) :
    rowErrorList fields raw = rowErrorList fields2 raw := by
  induction fields generalizing fields2 with
  | nil =>
      cases fields2 with
      | nil => rfl
      | cons g t => simp at h
  | cons f t ih =>
      cases fields2 with
      | nil => simp at h
      | cons g t2 =>
          simp only [List.map_cons] at h
          injection h with h1 h2
          show (match validateValue (mappedCell f raw) f with
            | none => rowErrorList t raw
            | some e => e :: rowErrorList t raw) =
            (match validateValue (mappedCell g raw) g with
            | none => rowErrorList t2 raw
            | some e => e :: rowErrorList t2 raw)
          rw [mappedCell_shape_congr f g raw h1,
            validateValue_shape_congr _ f g h1, ih t2 h2]

/-- The id-free view of `buildResultData` does not depend on the id-counter
state. -/
theorem eraseSubtractResult_buildResultData (rows : List Row) (headers : List Str)
    (type : SubtractResultType) (n m : Nat) :
    eraseSubtractResult (buildResultData rows headers type n).1 =
      eraseSubtractResult (buildResultData rows headers type m).1 := by
  have hshapes :
      (buildImportedFieldLayout (buildColumns rows headers) rows n).1.map fieldShape =
      (buildImportedFieldLayout (buildColumns rows headers) rows m).1.map fieldShape := by
    rw [layout_shapes, layout_shapes]
  rw [buildResultData, buildResultData, eraseSubtractResult, eraseSubtractResult]
  simp only []
  refine congrArg (Prod.mk type) (congrArg₂ Prod.mk hshapes ?_)
  rw [List.map_map, List.map_map]
  apply List.map_congr_left
  intro p _
  show eraseTableRow (mapRawRow _ _ p.2) = eraseTableRow (mapRawRow _ _ p.2)
  rw [eraseTableRow_mapRawRow, eraseTableRow_mapRawRow,
    map_mappedCell_congr _ _ p.2 hshapes, rowErrorList_congr _ _ p.2 hshapes]

/-- C8 (amended). The comparison engine consumes no generated identifiers
(its embedding takes no id state), and the subtraction engine is pure up to
the generated field/mapping ids: for any two id-generator states, the two
`runSubtract` results agree after erasing ids — every field shape, row id,
cell value and error message coincides. -/
theorem runSubtract_pure_up_to_ids (base target : ParsedSheetData) (key : Str)
    (n m : Nat) :
    (runSubtract base target key n).1.map eraseSubtractResult =
      (runSubtract base target key m).1.map eraseSubtractResult := by
  rw [runSubtract, runSubtract]
  simp only [List.map_cons, List.map_nil]
  rw [eraseSubtractResult_buildResultData _ _ _
      ((buildResultData (subtractPartitions base target key).1 base.headers .onlyInA n).2)
      ((buildResultData (subtractPartitions base target key).1 base.headers .onlyInA m).2),
    eraseSubtractResult_buildResultData _ _ .onlyInA n m,
    eraseSubtractResult_buildResultData
      (subtractPartitions base target key).2.2 base.headers .common _
      ((buildResultData (subtractPartitions base target key).2.1 target.headers .onlyInB
        ((buildResultData (subtractPartitions base target key).1 base.headers .onlyInA m).2)).2)]

/-- Counterexample to C8 as stated: the same inputs under two id-generator
states yield `SubtractResult`s that are NOT equal — the generated field ids
differ. -/
theorem runSubtract_results_differ_across_states :
    (runSubtract ⟨"a".data, ["k".data], [[("k".data, "x".data)]]⟩
        ⟨"b".data, ["k".data], []⟩ "k".data 0).1 ≠
      (runSubtract ⟨"a".data, ["k".data], [[("k".data, "x".data)]]⟩
        ⟨"b".data, ["k".data], []⟩ "k".data 1).1 := by
  decide

end TableChanges
